import Mathlib

/-!
Verification of the adaka store (`src/_internal/store.ts`, `selector.ts`,
`util.ts` and the dependency analyzer `getDependentPaths`) against its
natural-language specification.

The JSON-like document values manipulated by the library are embedded as a
mutual inductive (`JSVal` / `JSList` / `JSObj`); stateful classes (`Selector`,
`Store`) are embedded as explicit state records with functions returning the
new state together with the observable effects (listener invocations,
evaluator consultations).  External collaborators from the `mingo` dependency
(the expression evaluator, `resolve`, `isEqual`, `stringify`, `normalize`) are
modelled by small Lean functions following their documented semantics; the
spec treats the evaluator itself as a black box, so query tests and
projections appear as function parameters.
-/

namespace Adaka

-- JSON-ish runtime values: strings, numbers, booleans, null, arrays and
-- objects (insertion-ordered key/value lists, as JavaScript objects are).
mutual
inductive JSVal : Type where
  | str (s : String) : JSVal
  | num (n : Int) : JSVal
  | bool (b : Bool) : JSVal
  | null : JSVal
  | arr (xs : JSList) : JSVal
  | obj (kvs : JSObj) : JSVal

inductive JSList : Type where
  | nil : JSList
  | cons (v : JSVal) (rest : JSList) : JSList

inductive JSObj : Type where
  | nil : JSObj
  | cons (k : String) (v : JSVal) (rest : JSObj) : JSObj
end

-- Size measure used as recursion fuel for functions that walk values.
mutual
def jsize : JSVal → Nat
  | .str _ => 1
  | .num _ => 1
  | .bool _ => 1
  | .null => 1
  | .arr xs => 1 + jsizeL xs
  | .obj kvs => 1 + jsizeO kvs

def jsizeL : JSList → Nat
  | .nil => 0
  | .cons v rest => 1 + jsize v + jsizeL rest

def jsizeO : JSObj → Nat
  | .nil => 0
  | .cons _ v rest => 2 + jsize v + jsizeO rest
end

theorem jsize_pos (v : JSVal) : 1 ≤ jsize v := by
  cases v <;> simp [jsize]

/-- Boolean list-prefix test on character lists (model of JS
`String.prototype.startsWith`, applied to `.data`). -/
def lpre : List Char → List Char → Bool
  | [], _ => true
  | _ :: _, [] => false
  | a :: as, b :: bs => a == b && lpre as bs

/-- `startsW s p` holds when the string `s` starts with `p`
(JS `s.startsWith(p)`). -/
def startsW (s p : String) : Bool := lpre p.data s.data

theorem lpre_iff (p s : List Char) : lpre p s = true ↔ ∃ t, s = p ++ t := by
  induction p generalizing s with
  | nil => simp [lpre]
  | cons a as ih =>
    cases s with
    | nil => simp [lpre]
    | cons b bs =>
      simp only [lpre, Bool.and_eq_true, beq_iff_eq, ih]
      constructor
      · rintro ⟨rfl, t, rfl⟩; exact ⟨t, rfl⟩
      · rintro ⟨t, h⟩
        injection h with h1 h2
        exact ⟨h1.symm, t, h2⟩

theorem lpre_length {p s : List Char} (h : lpre p s = true) :
    p.length ≤ s.length := by
  rcases (lpre_iff p s).mp h with ⟨t, rfl⟩
  simp

theorem startsW_length {s p : String} (h : startsW s p = true) :
    p.length ≤ s.length :=
  lpre_length (p := p.data) (s := s.data) h

/-- Path-relatedness in the sense of the spec: equal, ancestor (the second
extends the first across a `.` boundary) or descendant. -/
def pathRelated (a b : String) : Bool :=
  a == b || startsW b (a ++ ".") || startsW a (b ++ ".")

/--
Translation of `sameAncestor` (`src/_internal/util.ts`):

    export const sameAncestor = (arr, path) => {
      if (new Set(arr).has(path)) return true;
      for (const v of arr) {
        const [s, l] = path.length < v.length ? [path, v] : [v, path];
        if (l.startsWith(s + ".")) return true;
      }
      return false;
    };
-/
def sameAncestor (arr : List String) (path : String) : Bool :=
  if arr.contains path then true
  else arr.any fun v =>
    if path.length < v.length then startsW v (path ++ ".")
    else startsW path (v ++ ".")

theorem length_append_dot (s : String) : (s ++ ".").length = s.length + 1 :=
  String.length_append s "."

theorem sameAncestor_iff (arr : List String) (path : String) :
    sameAncestor arr path = true ↔ ∃ v ∈ arr, pathRelated path v = true := by
  constructor
  · intro h
    unfold sameAncestor at h
    split at h
    · next hc =>
      exact ⟨path, by simpa using hc, by simp [pathRelated]⟩
    · next hc =>
      rcases List.any_eq_true.mp h with ⟨v, hv, hb⟩
      refine ⟨v, hv, ?_⟩
      unfold pathRelated
      split at hb
      · simp [hb]
      · simp [hb]
  · rintro ⟨v, hv, hb⟩
    unfold sameAncestor
    split
    · rfl
    · next hc =>
      have hmem : path ∉ arr := by
        intro hm
        exact hc (by simpa using hm)
      simp only [pathRelated, Bool.or_eq_true, beq_iff_eq] at hb
      apply List.any_eq_true.mpr
      refine ⟨v, hv, ?_⟩
      rcases hb with (heq | h2) | h3
      · exact absurd (heq ▸ hv) hmem
      · -- v starts with path ++ "." so path is strictly shorter than v
        have hlen : path.length < v.length := by
          have := startsW_length h2
          rw [length_append_dot] at this
          omega
        simp [hlen, h2]
      · -- path starts with v ++ "." so v is strictly shorter than path
        have hlen : ¬ path.length < v.length := by
          have := startsW_length h3
          rw [length_append_dot] at this
          omega
        simp [hlen, h3]

/-- C9: `sameAncestor([p], p)` is true for every `p`; `sameAncestor(["a.b"],
"a.b.c")` and `sameAncestor(["a.b.c"], "a.b")` are both true (symmetric in
ancestor/descendant direction); `sameAncestor(["a.b"], "a.c")` is false; and
paths sharing a bare string prefix without a `.` boundary are never related:
in general the predicate holds exactly when some member of the set is equal
to, an ancestor of, or a descendant of the path across a `.` boundary. -/
theorem claim_C9_sameAncestor :
    (∀ p : String, sameAncestor [p] p = true) ∧
    sameAncestor ["a.b"] "a.b.c" = true ∧
    sameAncestor ["a.b.c"] "a.b" = true ∧
    sameAncestor ["a.b"] "a.c" = false ∧
    sameAncestor ["a"] "ab" = false ∧
    sameAncestor ["ab"] "a" = false ∧
    (∀ (arr : List String) (path : String),
      sameAncestor arr path = true ↔
        ∃ v ∈ arr, (path = v ∨ startsW v (path ++ ".") = true ∨
          startsW path (v ++ ".") = true)) := by
  refine ⟨?_, by decide, by decide, by decide, by decide, by decide, ?_⟩
  · intro p
    simp [sameAncestor]
  · intro arr path
    rw [sameAncestor_iff]
    constructor
    · rintro ⟨v, hv, hb⟩
      simp only [pathRelated, Bool.or_eq_true, beq_iff_eq] at hb
      exact ⟨v, hv, by tauto⟩
    · rintro ⟨v, hv, hb⟩
      refine ⟨v, hv, ?_⟩
      simp only [pathRelated, Bool.or_eq_true, beq_iff_eq]
      tauto

/-! ### JS `Set` dedup and `Array.prototype.sort`, as used by `Store.update` -/

/-- Order-preserving deduplication with an accumulator of already-seen
elements; `dedupJS` below models `Array.from(new Set(arr))`. -/
def dedupAux (seen : List String) : List String → List String
  | [] => []
  | x :: xs => if x ∈ seen then dedupAux seen xs else x :: dedupAux (x :: seen) xs

/-- Model of `Array.from(new Set(arr))`: first occurrences, insertion order. -/
def dedupJS (l : List String) : List String := dedupAux [] l

theorem mem_dedupAux (seen l : List String) (x : String) :
    x ∈ dedupAux seen l ↔ x ∈ l ∧ x ∉ seen := by
  induction l generalizing seen with
  | nil => simp [dedupAux]
  | cons y ys ih =>
    by_cases hy : y ∈ seen
    · simp only [dedupAux, if_pos hy, ih]
      constructor
      · rintro ⟨h1, h2⟩; exact ⟨.tail _ h1, h2⟩
      · rintro ⟨h1, h2⟩
        rcases List.mem_cons.mp h1 with rfl | h1
        · exact absurd hy h2
        · exact ⟨h1, h2⟩
    · simp only [dedupAux, if_neg hy, List.mem_cons, ih, List.mem_cons]
      constructor
      · rintro (rfl | ⟨h1, h2⟩)
        · exact ⟨.inl rfl, hy⟩
        · exact ⟨.inr h1, fun hx => h2 (.inr hx)⟩
      · rintro ⟨rfl | h1, h2⟩
        · exact .inl rfl
        · by_cases hxy : x = y
          · exact .inl hxy
          · exact .inr ⟨h1, fun hx => by
              rcases hx with h | h
              · exact hxy h
              · exact h2 h⟩

theorem nodup_dedupAux (seen l : List String) : (dedupAux seen l).Nodup := by
  induction l generalizing seen with
  | nil => simp [dedupAux]
  | cons y ys ih =>
    by_cases hy : y ∈ seen
    · simpa [dedupAux, if_pos hy] using ih seen
    · simp only [dedupAux, if_neg hy, List.nodup_cons]
      refine ⟨fun hmem => ?_, ih (y :: seen)⟩
      exact ((mem_dedupAux _ _ _).mp hmem).2 (.head _)

theorem mem_dedupJS (l : List String) (x : String) : x ∈ dedupJS l ↔ x ∈ l := by
  simp [dedupJS, mem_dedupAux]

theorem nodup_dedupJS (l : List String) : (dedupJS l).Nodup := nodup_dedupAux [] l

theorem toFinset_dedupJS (l : List String) : (dedupJS l).toFinset = l.toFinset := by
  ext x
  simp [mem_dedupJS]

theorem length_dedupJS (l : List String) : (dedupJS l).length = l.toFinset.card := by
  rw [← toFinset_dedupJS]
  exact (List.toFinset_card_of_nodup (nodup_dedupJS l)).symm

/-- Lexicographic comparison of character lists by code point (model of the
default JS `Array.prototype.sort` string comparator). -/
def lexLe : List Char → List Char → Bool
  | [], _ => true
  | _ :: _, [] => false
  | a :: as, b :: bs =>
    if a.toNat < b.toNat then true
    else if a.toNat == b.toNat then lexLe as bs else false

/-- String order used to sort the changed-field list. -/
def strLe (a b : String) : Bool := lexLe a.data b.data

theorem lexLe_total (a b : List Char) : lexLe a b = true ∨ lexLe b a = true := by
  induction a generalizing b with
  | nil => exact .inl rfl
  | cons x xs ih =>
    cases b with
    | nil => exact .inr rfl
    | cons y ys =>
      rcases Nat.lt_trichotomy x.toNat y.toNat with h | h | h
      · exact .inl (by simp [lexLe, h])
      · rcases ih ys with h1 | h1
        · exact .inl (by simp [lexLe, h, h1])
        · exact .inr (by simp [lexLe, h.symm, h1])
      · exact .inr (by simp [lexLe, h])

theorem lexLe_trans {a b c : List Char} (h1 : lexLe a b = true)
    (h2 : lexLe b c = true) : lexLe a c = true := by
  induction a generalizing b c with
  | nil => rfl
  | cons x xs ih =>
    cases b with
    | nil => simp [lexLe] at h1
    | cons y ys =>
      cases c with
      | nil => simp [lexLe] at h2
      | cons z zs =>
        simp only [lexLe] at h1 h2 ⊢
        by_cases hxy : x.toNat < y.toNat
        · by_cases hyz : y.toNat < z.toNat
          · simp [Nat.lt_trans hxy hyz]
          · simp only [if_neg hyz] at h2
            by_cases heq : y.toNat = z.toNat
            · simp [heq ▸ hxy]
            · simp [heq] at h2
        · simp only [if_neg hxy] at h1
          by_cases heq : x.toNat = y.toNat
          · simp only [heq, beq_self_eq_true, if_true] at h1
            rw [heq] at hxy ⊢
            by_cases hyz : y.toNat < z.toNat
            · simp [hyz]
            · simp only [if_neg hyz] at h2 ⊢
              by_cases heq2 : y.toNat = z.toNat
              · simp only [heq2, beq_self_eq_true, if_true] at h2 ⊢
                simp [ih h1 h2]
              · simp [heq2] at h2
          · simp [heq] at h1

theorem strLe_total (a b : String) : strLe a b = true ∨ strLe b a = true :=
  lexLe_total a.data b.data

theorem strLe_trans {a b c : String} (h1 : strLe a b = true)
    (h2 : strLe b c = true) : strLe a c = true :=
  lexLe_trans h1 h2

/-- Sorted insertion used to model `fields.sort()`. -/
def insertSorted (x : String) : List String → List String
  | [] => [x]
  | y :: ys => if strLe x y then x :: y :: ys else y :: insertSorted x ys

/-- Model of the default `Array.prototype.sort()` on strings (the ascending
rearrangement; on duplicate-free input the ascending order is unique, so any
correct sort yields this list). -/
def sortJS (l : List String) : List String := l.foldr insertSorted []

theorem mem_insertSorted (x y : String) (l : List String) :
    y ∈ insertSorted x l ↔ y = x ∨ y ∈ l := by
  induction l with
  | nil => simp [insertSorted]
  | cons z zs ih =>
    by_cases h : strLe x z
    · simp [insertSorted, h]
    · simp only [insertSorted, if_neg h, List.mem_cons, ih]
      tauto

theorem mem_sortJS (l : List String) (x : String) : x ∈ sortJS l ↔ x ∈ l := by
  induction l with
  | nil => simp [sortJS]
  | cons y ys ih =>
    simp only [sortJS, List.foldr_cons] at *
    rw [mem_insertSorted, ih, List.mem_cons]

theorem sorted_insertSorted (x : String) (l : List String)
    (h : l.Pairwise fun a b => strLe a b = true) :
    (insertSorted x l).Pairwise fun a b => strLe a b = true := by
  induction l with
  | nil => simp [insertSorted]
  | cons y ys ih =>
    rcases List.pairwise_cons.mp h with ⟨hy, hys⟩
    by_cases hxy : strLe x y
    · rw [insertSorted, if_pos hxy]
      refine List.pairwise_cons.mpr ⟨?_, h⟩
      intro b hb
      rcases List.mem_cons.mp hb with rfl | hb
      · exact hxy
      · exact strLe_trans hxy (hy b hb)
    · have hyx : strLe y x := by
        rcases strLe_total x y with h1 | h1
        · exact absurd h1 hxy
        · exact h1
      rw [insertSorted, if_neg hxy]
      refine List.pairwise_cons.mpr ⟨?_, ih hys⟩
      intro b hb
      rcases (mem_insertSorted x b ys).mp hb with rfl | hb
      · exact hyx
      · exact hy b hb

theorem sorted_sortJS (l : List String) :
    (sortJS l).Pairwise fun a b => strLe a b = true := by
  induction l with
  | nil => simp [sortJS]
  | cons y ys ih => exact sorted_insertSorted y _ ih

theorem nodup_insertSorted (x : String) (l : List String)
    (hx : x ∉ l) (h : l.Nodup) : (insertSorted x l).Nodup := by
  induction l with
  | nil => simp [insertSorted]
  | cons y ys ih =>
    rcases List.nodup_cons.mp h with ⟨hy, hys⟩
    by_cases hxy : strLe x y
    · rw [insertSorted, if_pos hxy]
      exact List.nodup_cons.mpr ⟨hx, h⟩
    · rw [insertSorted, if_neg hxy]
      apply List.nodup_cons.mpr
      constructor
      · intro hmem
        rcases (mem_insertSorted x y ys).mp hmem with rfl | hmem
        · exact hx (.head _)
        · exact hy hmem
      · exact ih (fun hm => hx (.tail _ hm)) hys

theorem nodup_sortJS (l : List String) (h : l.Nodup) : (sortJS l).Nodup := by
  induction l with
  | nil => simp [sortJS]
  | cons y ys ih =>
    rcases List.nodup_cons.mp h with ⟨hy, hys⟩
    have hny : y ∉ sortJS ys := by
      rw [mem_sortJS]
      exact hy
    exact nodup_insertSorted y _ hny (ih hys)

/-! ### The change signal of `Store.select` (`src/_internal/store.ts`) -/

/--
Translation of the `signal` closure created in `Store.select`:

    const pred = !expected.size ? () => true : sameAncestor.bind(null, expected);
    const signal = (changed) => {
      const isize = new Set(changed.concat(Array.from(expected))).size;
      const usize = expected.size + changed.length;
      const notify = isize < usize || changed.some(pred);
      if (notify) selector.notifyAll();
      return notify;
    };

`expected` is the selector's Dependency Set (a JS `Set`, so duplicate-free);
`changed` is the deduplicated changed-field list produced by `Store.update`.
-/
def signalNotify (expected changed : List String) : Bool :=
  let isize := (dedupJS (changed ++ expected)).length
  let usize := expected.length + changed.length
  decide (isize < usize) ||
    (if expected.isEmpty then changed.any fun _ => true
     else changed.any (sameAncestor expected))

theorem isize_lt_usize_iff (expected changed : List String)
    (hc : changed.Nodup) (he : expected.Nodup) :
    (dedupJS (changed ++ expected)).length < expected.length + changed.length ↔
      ∃ c ∈ changed, c ∈ expected := by
  rw [length_dedupJS, List.toFinset_append]
  have hcard : (changed.toFinset ∪ expected.toFinset).card +
      (changed.toFinset ∩ expected.toFinset).card =
      changed.toFinset.card + expected.toFinset.card :=
    Finset.card_union_add_card_inter _ _
  rw [List.toFinset_card_of_nodup hc, List.toFinset_card_of_nodup he] at hcard
  constructor
  · intro hlt
    have hpos : 0 < (changed.toFinset ∩ expected.toFinset).card := by omega
    rcases Finset.card_pos.mp hpos with ⟨x, hx⟩
    rcases Finset.mem_inter.mp hx with ⟨hx1, hx2⟩
    exact ⟨x, List.mem_toFinset.mp hx1, List.mem_toFinset.mp hx2⟩
  · rintro ⟨c, h1, h2⟩
    have hpos : 0 < (changed.toFinset ∩ expected.toFinset).card := by
      apply Finset.card_pos.mpr
      exact ⟨c, Finset.mem_inter.mpr ⟨List.mem_toFinset.mpr h1,
        List.mem_toFinset.mpr h2⟩⟩
    omega

/-- Characterization of the change signal: with a duplicate-free nonempty
changed list and a duplicate-free Dependency Set, the signal fires exactly
when the set is empty or some changed path is related (equal / ancestor /
descendant) to some dependency path. -/
theorem signalNotify_iff (expected changed : List String)
    (hne : changed ≠ []) (hc : changed.Nodup) (he : expected.Nodup) :
    signalNotify expected changed = true ↔
      (expected = [] ∨
        ∃ c ∈ changed, ∃ v ∈ expected, pathRelated c v = true) := by
  unfold signalNotify
  by_cases hemp : expected.isEmpty
  · have hexp : expected = [] := List.isEmpty_iff.mp hemp
    subst hexp
    simp only [hemp, if_true, Bool.or_eq_true]
    constructor
    · intro _; exact .inl trivial
    · intro _
      refine .inr (List.any_eq_true.mpr ?_)
      rcases List.exists_mem_of_ne_nil changed hne with ⟨c, hmem⟩
      exact ⟨c, hmem, rfl⟩
  · have hexp : expected ≠ [] := fun h => hemp (by simp [h])
    simp only [hemp, if_false, Bool.or_eq_true, decide_eq_true_eq]
    constructor
    · rintro (hlt | hany)
      · rcases (isize_lt_usize_iff expected changed hc he).mp hlt with ⟨c, h1, h2⟩
        refine .inr ⟨c, h1, c, h2, ?_⟩
        simp [pathRelated]
      · rcases List.any_eq_true.mp hany with ⟨c, hmem, hsa⟩
        rcases (sameAncestor_iff expected c).mp hsa with ⟨v, hv, hr⟩
        exact .inr ⟨c, hmem, v, hv, hr⟩
    · rintro (h | ⟨c, hmem, v, hv, hr⟩)
      · exact absurd h hexp
      · refine .inr (List.any_eq_true.mpr ⟨c, hmem, ?_⟩)
        exact (sameAncestor_iff expected c).mpr ⟨v, hv, hr⟩

/-! ### Deep equality (model of mingo `isEqual`) -/

-- Structural deep equality on values, modelling mingo's `isEqual` as used by
-- `Selector.notifyAll` to compare the recomputed view against the previous
-- one.
mutual
def jeq : JSVal → JSVal → Bool
  | .str a, .str b => a == b
  | .num a, .num b => a == b
  | .bool a, .bool b => a == b
  | .null, .null => true
  | .arr a, .arr b => jeqL a b
  | .obj a, .obj b => jeqObj a b
  | _, _ => false

def jeqL : JSList → JSList → Bool
  | .nil, .nil => true
  | .cons v r, .cons w s => jeq v w && jeqL r s
  | _, _ => false

def jeqObj : JSObj → JSObj → Bool
  | .nil, .nil => true
  | .cons k v r, .cons k2 w s => k == k2 && jeq v w && jeqObj r s
  | _, _ => false
end

/-- `isEqual` lifted to possibly-undefined values; the `NONE` sentinel used by
`notifyAll` is represented separately (an outer `Option`) and never equals a
real value. -/
def jeqOpt : Option JSVal → Option JSVal → Bool
  | none, none => true
  | some a, some b => jeq a b
  | _, _ => false

/-! ### Selector (`src/_internal/selector.ts`)

A `Selector` holds a JS `Set` of listeners (insertion-ordered,
duplicate-free), the subset registered in once mode, the last computed value
and the cache flag.  Listeners are identified by an abstract type `L`; a
listener's behaviour when invoked (returns normally / throws) is an oracle
`behave : L → Bool` (`true` = throws), and the store's
`getState(projection, query)` evaluation — the external evaluator — is the
`compute : Option JSVal` parameter (`none` = `undefined`, i.e. the condition
failed). -/
structure SelectorSt (L : Type) where
  listeners : List L
  onceOnly : List L
  value : Option JSVal
  cached : Bool

/-- A fresh selector as built by the `Selector` constructor. -/
def selectorInit (L : Type) : SelectorSt L := ⟨[], [], none, false⟩

/-- Result of a `notifyAll` call: the new selector state, the listeners
invoked (in order, with the value each received), and how many times the
store evaluator (`this.stateFn`, i.e. condition test + projection) ran. -/
structure NotifyOut (L : Type) where
  state : SelectorSt L
  invoked : List (L × Option JSVal)
  computes : Nat

/--
The listener fan-out loop of `Selector.notifyAll`:

    for (const f of this.listeners) {
      try { f(val); }
      catch { this.listeners.delete(f); }
      finally { if (this.onceOnly.delete(f)) this.listeners.delete(f); }
    }

The first argument is the iteration snapshot (deleting only the current
element of a JS `Set` during iteration does not disturb the sequence of
visited elements); the pair is the current (listeners, onceOnly).
-/
def fanOut {L : Type} [DecidableEq L] (behave : L → Bool) :
    List L → List L → List L → List L × List L
  | [], ls, once => (ls, once)
  | f :: rest, ls, once =>
    let ls1 := if behave f then ls.erase f else ls
    if f ∈ once then fanOut behave rest (ls1.erase f) (once.erase f)
    else fanOut behave rest ls1 once

/--
Translation of `Selector.notifyAll` (`src/_internal/selector.ts`):

    notifyAll() {
      if (!this.listeners.size) return;
      const prev = this.cached ? this.getState() : NONE;
      this.cached = false;
      const val = this.getState();
      if (isEqual(prev, val)) return;
      for (const f of this.listeners) { ... }   // fanOut above
    }

`getState()` returns the cached value without consulting the evaluator when
`cached` is set, and otherwise runs the evaluator once, caches and returns
the result.
-/
def notifyAllFn {L : Type} [DecidableEq L] (behave : L → Bool)
    (compute : Option JSVal) (s : SelectorSt L) : NotifyOut L :=
  if s.listeners.isEmpty then ⟨s, [], 0⟩
  else
    -- prev = cached ? getState() : NONE, and NONE compares unequal to every
    -- real value, so the skip test isEqual(prev, val) amounts to
    -- cached && isEqual(previous value, recomputed value).
    let s1 : SelectorSt L := { s with cached := true, value := compute }
    if s.cached && jeqOpt s.value compute then ⟨s1, [], 1⟩
    else
      let fo := fanOut behave s.listeners s.listeners s.onceOnly
      ⟨{ s1 with listeners := fo.1, onceOnly := fo.2 },
        s.listeners.map (fun g => (g, compute)), 1⟩

/-- Result of a `subscribe` call: the new selector state, the immediate
invocations of the listener (from `runImmediately`), and whether the
registration call itself threw (duplicate registration, or a rethrown
immediate-invocation error). -/
structure SubOut (L : Type) where
  state : SelectorSt L
  immediate : List L
  errored : Bool

/--
Translation of `Selector.subscribe` (`src/_internal/selector.ts`):

    subscribe(listener, options) {
      if (this.listeners.has(listener)) throw new Error("Listener already subscribed.");
      if (options && options.runOnce) this.onceOnly.add(listener);
      this.listeners.add(listener);
      const unsub = () => { this.onceOnly.delete(listener); this.listeners.delete(listener); };
      if (options && options.runImmediately) {
        const val = this.getState();
        if (val !== undefined) {
          try { listener(val); }
          catch (e) { unsub(); throw e; }
          finally { if (this.onceOnly.has(listener)) unsub(); }
        }
      }
      return unsub;
    }
-/
def subscribeFn {L : Type} [DecidableEq L] (behave : L → Bool)
    (compute : Option JSVal) (f : L) (runImmediately runOnce : Bool)
    (s : SelectorSt L) : SubOut L :=
  if f ∈ s.listeners then ⟨s, [], true⟩
  else
    let s1 : SelectorSt L :=
      { s with onceOnly := if runOnce then s.onceOnly ++ [f] else s.onceOnly,
               listeners := s.listeners ++ [f] }
    if runImmediately then
      let v2 := if s1.cached then (s1.value, s1)
                else (compute, { s1 with cached := true, value := compute })
      match v2.1 with
      | none => ⟨v2.2, [], false⟩
      | some _ =>
        if behave f then
          ⟨{ v2.2 with listeners := v2.2.listeners.erase f,
                       onceOnly := v2.2.onceOnly.erase f }, [f], true⟩
        else if f ∈ v2.2.onceOnly then
          ⟨{ v2.2 with listeners := v2.2.listeners.erase f,
                       onceOnly := v2.2.onceOnly.erase f }, [f], false⟩
        else ⟨v2.2, [f], false⟩
    else ⟨s1, [], false⟩

/-- Runs a sequence of `notifyAll` rounds (each with its own listener
behaviour oracle and evaluator result) and collects every listener
invocation in order. -/
def runRounds {L : Type} [DecidableEq L] (s : SelectorSt L) :
    List ((L → Bool) × Option JSVal) → SelectorSt L × List L
  | [] => (s, [])
  | (b, c) :: rest =>
    let out := notifyAllFn b c s
    let r := runRounds out.state rest
    (r.1, out.invoked.map Prod.fst ++ r.2)

/-! ### Properties of the fan-out loop and `notifyAll` -/

theorem fanOut_listeners_subset {L : Type} [DecidableEq L] (behave : L → Bool)
    (fs : List L) : ∀ (ls once : List L), (fanOut behave fs ls once).1 ⊆ ls := by
  induction fs with
  | nil => intro ls once; exact fun _ h => h
  | cons g rest ih =>
    intro ls once
    unfold fanOut
    by_cases hg : g ∈ once
    · rw [if_pos hg]
      intro x hx
      have hx2 := ih _ _ hx
      have hx3 := List.erase_subset _ _ hx2
      split at hx3
      · exact List.erase_subset _ _ hx3
      · exact hx3
    · rw [if_neg hg]
      intro x hx
      have hx2 := ih _ _ hx
      split at hx2
      · exact List.erase_subset _ _ hx2
      · exact hx2

theorem fanOut_not_mem {L : Type} [DecidableEq L] (behave : L → Bool)
    (fs ls once : List L) (f : L) (h : f ∉ ls) :
    f ∉ (fanOut behave fs ls once).1 :=
  fun hmem => h (fanOut_listeners_subset behave fs ls once hmem)

theorem fanOut_nodup {L : Type} [DecidableEq L] (behave : L → Bool)
    (fs : List L) : ∀ (ls once : List L), ls.Nodup →
      (fanOut behave fs ls once).1.Nodup := by
  induction fs with
  | nil => intro ls once h; exact h
  | cons g rest ih =>
    intro ls once h
    have h1 : (if behave g then ls.erase g else ls).Nodup := by
      split
      · exact h.erase g
      · exact h
    unfold fanOut
    by_cases hg : g ∈ once
    · rw [if_pos hg]
      exact ih _ _ (h1.erase g)
    · rw [if_neg hg]
      exact ih _ _ h1

theorem fanOut_removes {L : Type} [DecidableEq L] (behave : L → Bool)
    (fs : List L) : ∀ (ls once : List L) (f : L), ls.Nodup → f ∈ fs →
      (behave f = true ∨ f ∈ once) → f ∉ (fanOut behave fs ls once).1 := by
  induction fs with
  | nil => intro ls once f _ hmem _; cases hmem
  | cons g rest ih =>
    intro ls once f hnodup hmem hcond
    by_cases hgf : g = f
    · subst hgf
      rcases hcond with hthrow | honce
      · -- the listener throws: it is erased when its own turn comes
        have hout : g ∉ (if behave g then ls.erase g else ls).erase g := by
          rw [if_pos hthrow]
          intro hx
          exact (hnodup.erase g).not_mem_erase hx
        have hout2 : g ∉ (if behave g then ls.erase g else ls) := by
          rw [if_pos hthrow]
          exact hnodup.not_mem_erase
        unfold fanOut
        by_cases hg : g ∈ once
        · rw [if_pos hg]
          exact fanOut_not_mem _ _ _ _ _ hout
        · rw [if_neg hg]
          exact fanOut_not_mem _ _ _ _ _ hout2
      · -- once-mode: the finally block erases it
        unfold fanOut
        rw [if_pos honce]
        apply fanOut_not_mem
        intro hx
        have h1 : (if behave g then ls.erase g else ls).Nodup := by
          split
          · exact hnodup.erase g
          · exact hnodup
        exact h1.not_mem_erase hx
    · have hfrest : f ∈ rest := by
        rcases List.mem_cons.mp hmem with h | h
        · exact absurd h.symm hgf
        · exact h
      have h1 : (if behave g then ls.erase g else ls).Nodup := by
        split
        · exact hnodup.erase g
        · exact hnodup
      unfold fanOut
      by_cases hg : g ∈ once
      · rw [if_pos hg]
        apply ih _ _ _ (h1.erase g) hfrest
        rcases hcond with h | h
        · exact .inl h
        · exact .inr ((List.mem_erase_of_ne (fun he => hgf he.symm)).mpr h)
      · rw [if_neg hg]
        exact ih _ _ _ h1 hfrest hcond

theorem fanOut_once_keep {L : Type} [DecidableEq L] (behave : L → Bool)
    (fs : List L) : ∀ (ls once : List L) (f : L), f ∉ fs → f ∈ once →
      f ∈ (fanOut behave fs ls once).2 := by
  induction fs with
  | nil => intro ls once f _ h; exact h
  | cons g rest ih =>
    intro ls once f hnf honce
    have hgf : f ≠ g := fun he => hnf (he ▸ .head rest)
    have hrest : f ∉ rest := fun hr => hnf (.tail _ hr)
    unfold fanOut
    by_cases hg : g ∈ once
    · rw [if_pos hg]
      exact ih _ _ _ hrest ((List.mem_erase_of_ne hgf).mpr honce)
    · rw [if_neg hg]
      exact ih _ _ _ hrest honce

/-- Branch lemma: `notifyAll` on a selector with no listeners is a strict
no-op (state untouched, nobody invoked, the evaluator never consulted). -/
theorem notifyAll_empty {L : Type} [DecidableEq L] (behave : L → Bool)
    (compute : Option JSVal) (s : SelectorSt L)
    (h : s.listeners.isEmpty = true) :
    notifyAllFn behave compute s = ⟨s, [], 0⟩ := by
  unfold notifyAllFn
  rw [if_pos h]

/-- Branch lemma: the deep-equal skip (previous value cached and equal to the
recomputed one). -/
theorem notifyAll_skip {L : Type} [DecidableEq L] (behave : L → Bool)
    (compute : Option JSVal) (s : SelectorSt L)
    (h1 : s.listeners.isEmpty = false)
    (h2 : (s.cached && jeqOpt s.value compute) = true) :
    notifyAllFn behave compute s =
      ⟨{ s with cached := true, value := compute }, [], 1⟩ := by
  unfold notifyAllFn
  rw [h1]
  simp only [Bool.false_eq_true, if_false]
  rw [if_pos h2]

/-- Branch lemma: the fan-out case. -/
theorem notifyAll_fan {L : Type} [DecidableEq L] (behave : L → Bool)
    (compute : Option JSVal) (s : SelectorSt L)
    (h1 : s.listeners.isEmpty = false)
    (h2 : (s.cached && jeqOpt s.value compute) = false) :
    notifyAllFn behave compute s =
      ⟨⟨(fanOut behave s.listeners s.listeners s.onceOnly).1,
        (fanOut behave s.listeners s.listeners s.onceOnly).2, compute, true⟩,
        s.listeners.map (fun g => (g, compute)), 1⟩ := by
  unfold notifyAllFn
  rw [h1]
  simp only [Bool.false_eq_true, if_false]
  rw [h2]
  simp only [Bool.false_eq_true, if_false]

theorem notifyAll_not_mem {L : Type} [DecidableEq L] (behave : L → Bool)
    (compute : Option JSVal) (s : SelectorSt L) (f : L)
    (h : f ∉ s.listeners) :
    f ∉ (notifyAllFn behave compute s).state.listeners ∧
      f ∉ (notifyAllFn behave compute s).invoked.map Prod.fst := by
  by_cases h1 : s.listeners.isEmpty
  · rw [notifyAll_empty behave compute s h1]
    exact ⟨h, by simp⟩
  · have h1f : s.listeners.isEmpty = false := by
      simpa using h1
    by_cases h2 : s.cached && jeqOpt s.value compute
    · rw [notifyAll_skip behave compute s h1f h2]
      exact ⟨h, by simp⟩
    · have h2f : (s.cached && jeqOpt s.value compute) = false := by
        simpa using h2
      rw [notifyAll_fan behave compute s h1f h2f]
      constructor
      · exact fanOut_not_mem _ _ _ _ _ h
      · simpa using h

theorem notifyAll_nodup {L : Type} [DecidableEq L] (behave : L → Bool)
    (compute : Option JSVal) (s : SelectorSt L)
    (h : s.listeners.Nodup) :
    (notifyAllFn behave compute s).state.listeners.Nodup := by
  by_cases h1 : s.listeners.isEmpty
  · rw [notifyAll_empty behave compute s h1]; exact h
  · have h1f : s.listeners.isEmpty = false := by simpa using h1
    by_cases h2 : s.cached && jeqOpt s.value compute
    · rw [notifyAll_skip behave compute s h1f h2]; exact h
    · have h2f : (s.cached && jeqOpt s.value compute) = false := by
        simpa using h2
      rw [notifyAll_fan behave compute s h1f h2f]
      exact fanOut_nodup behave _ _ _ h

theorem notifyAll_once_keep {L : Type} [DecidableEq L] (behave : L → Bool)
    (compute : Option JSVal) (s : SelectorSt L) (f : L)
    (honce : f ∈ s.onceOnly)
    (hninv : f ∉ (notifyAllFn behave compute s).invoked.map Prod.fst) :
    f ∈ (notifyAllFn behave compute s).state.onceOnly := by
  by_cases h1 : s.listeners.isEmpty
  · rw [notifyAll_empty behave compute s h1]; exact honce
  · have h1f : s.listeners.isEmpty = false := by simpa using h1
    by_cases h2 : s.cached && jeqOpt s.value compute
    · rw [notifyAll_skip behave compute s h1f h2]; exact honce
    · have h2f : (s.cached && jeqOpt s.value compute) = false := by
        simpa using h2
      rw [notifyAll_fan behave compute s h1f h2f] at hninv ⊢
      have hnl : f ∉ s.listeners := by simpa using hninv
      exact fanOut_once_keep behave _ _ _ _ hnl honce

theorem notifyAll_once_fired {L : Type} [DecidableEq L] (behave : L → Bool)
    (compute : Option JSVal) (s : SelectorSt L) (f : L)
    (hnodup : s.listeners.Nodup) (honce : f ∈ s.onceOnly)
    (hinv : f ∈ (notifyAllFn behave compute s).invoked.map Prod.fst) :
    f ∉ (notifyAllFn behave compute s).state.listeners := by
  by_cases h1 : s.listeners.isEmpty
  · rw [notifyAll_empty behave compute s h1] at hinv ⊢
    simp at hinv
  · have h1f : s.listeners.isEmpty = false := by simpa using h1
    by_cases h2 : s.cached && jeqOpt s.value compute
    · rw [notifyAll_skip behave compute s h1f h2] at hinv
      simp at hinv
    · have h2f : (s.cached && jeqOpt s.value compute) = false := by
        simpa using h2
      rw [notifyAll_fan behave compute s h1f h2f] at hinv ⊢
      have hmem : f ∈ s.listeners := by simpa using hinv
      exact fanOut_removes behave _ _ _ _ hnodup hmem (.inr honce)

theorem runRounds_not_mem {L : Type} [DecidableEq L]
    (rounds : List ((L → Bool) × Option JSVal)) :
    ∀ (s : SelectorSt L) (f : L), f ∉ s.listeners →
      (runRounds s rounds).2.count f = 0 := by
  induction rounds with
  | nil => intro s f _; rfl
  | cons r rest ih =>
    intro s f h
    unfold runRounds
    rw [List.count_append]
    rcases notifyAll_not_mem r.1 r.2 s f h with ⟨hs, hi⟩
    rw [List.count_eq_zero.mpr hi, ih _ _ hs]

theorem runRounds_once_le_one {L : Type} [DecidableEq L]
    (rounds : List ((L → Bool) × Option JSVal)) :
    ∀ (s : SelectorSt L) (f : L), s.listeners.Nodup → f ∈ s.onceOnly →
      (runRounds s rounds).2.count f ≤ 1 := by
  induction rounds with
  | nil => intro s f _ _; simp [runRounds]
  | cons r rest ih =>
    intro s f hnodup honce
    unfold runRounds
    rw [List.count_append]
    by_cases hinv : f ∈ (notifyAllFn r.1 r.2 s).invoked.map Prod.fst
    · -- invoked this round: counted once here, absent from later rounds
      have hcount1 : ((notifyAllFn r.1 r.2 s).invoked.map Prod.fst).count f ≤ 1 := by
        by_cases h1 : s.listeners.isEmpty
        · rw [notifyAll_empty r.1 r.2 s h1] at hinv
          simp at hinv
        · have h1f : s.listeners.isEmpty = false := by simpa using h1
          by_cases h2 : s.cached && jeqOpt s.value r.2
          · rw [notifyAll_skip r.1 r.2 s h1f h2] at hinv
            simp at hinv
          · have h2f : (s.cached && jeqOpt s.value r.2) = false := by
              simpa using h2
            rw [notifyAll_fan r.1 r.2 s h1f h2f]
            have hcomp : (Prod.fst ∘ fun g : L => (g, r.2)) = id := rfl
            have : (List.map Prod.fst
                (s.listeners.map fun g => (g, r.2))) = s.listeners := by
              rw [List.map_map, hcomp, List.map_id]
            rw [this]
            exact List.nodup_iff_count_le_one.mp hnodup f
      have hgone := notifyAll_once_fired r.1 r.2 s f hnodup honce hinv
      have hrest := runRounds_not_mem rest _ f hgone
      omega
    · rw [List.count_eq_zero.mpr hinv]
      have hkeep := notifyAll_once_keep r.1 r.2 s f honce hinv
      have hnodup2 := notifyAll_nodup r.1 r.2 s hnodup
      simpa using ih _ f hnodup2 hkeep

/-- C3: `notifyAll` on a selector with zero registered listeners invokes no
listener, performs no condition test or projection (the evaluator is never
consulted: `computes = 0`) and leaves the selector untouched; and whenever
the previous value is cached and the recomputed value deep-equals it,
`notifyAll` stops without invoking any listener. -/
theorem claim_C3_notifyAll_cheap_skip (L : Type) [DecidableEq L] :
    (∀ (behave : L → Bool) (compute : Option JSVal) (s : SelectorSt L),
      s.listeners = [] → notifyAllFn behave compute s = ⟨s, [], 0⟩) ∧
    (∀ (behave : L → Bool) (compute : Option JSVal) (s : SelectorSt L),
      s.cached = true → jeqOpt s.value compute = true →
      (notifyAllFn behave compute s).invoked = []) := by
  constructor
  · intro behave compute s h
    exact notifyAll_empty behave compute s (by simp [h])
  · intro behave compute s hcached heq
    by_cases h1 : s.listeners.isEmpty
    · rw [notifyAll_empty behave compute s h1]
    · have h1f : s.listeners.isEmpty = false := by simpa using h1
      rw [notifyAll_skip behave compute s h1f (by rw [hcached, heq]; rfl)]

/-- Witness for C3 at concrete inputs: an empty selector, and a cached
selector whose recomputation yields the same value. -/
theorem claim_C3_witness :
    notifyAllFn (fun _ : Nat => false) none
        (⟨[], [], none, false⟩ : SelectorSt Nat) =
      ⟨⟨[], [], none, false⟩, [], 0⟩ ∧
    (notifyAllFn (fun _ : Nat => false) (some .null)
        (⟨[5], [], some .null, true⟩ : SelectorSt Nat)).invoked = [] :=
  ⟨(claim_C3_notifyAll_cheap_skip Nat).1 _ _ _ rfl,
   (claim_C3_notifyAll_cheap_skip Nat).2 _ _ _ rfl (by decide)⟩

/-- C4: during `notifyAll` fan-out, a listener that throws is caught locally
and permanently removed: the invocation list still covers every listener of
the round, in registration order, each receiving the same value (so
subsequent listeners are unaffected); afterwards the thrower is no longer
registered and receives nothing from any later round.  `notifyAllFn` (and
hence the `update` that triggered it) is a total function — the exception is
consumed by the catch block and never surfaces to the caller. -/
theorem claim_C4_throwing_listener (L : Type) [DecidableEq L]
    (behave : L → Bool) (compute : Option JSVal) (s : SelectorSt L) (f : L)
    (rounds : List ((L → Bool) × Option JSVal))
    (hnodup : s.listeners.Nodup) (hmem : f ∈ s.listeners)
    (hthrow : behave f = true)
    (hnoskip : (s.cached && jeqOpt s.value compute) = false) :
    (notifyAllFn behave compute s).invoked
        = s.listeners.map (fun g => (g, compute)) ∧
    f ∉ (notifyAllFn behave compute s).state.listeners ∧
    (runRounds (notifyAllFn behave compute s).state rounds).2.count f = 0 := by
  have h1f : s.listeners.isEmpty = false := by
    have hne := List.ne_nil_of_mem hmem
    cases h : s.listeners.isEmpty
    · rfl
    · exact absurd (List.isEmpty_iff.mp h) hne
  rw [notifyAll_fan behave compute s h1f hnoskip]
  refine ⟨rfl, ?_, ?_⟩
  · exact fanOut_removes behave _ _ _ _ hnodup hmem (.inl hthrow)
  · exact runRounds_not_mem rounds _ f
      (fanOut_removes behave _ _ _ _ hnodup hmem (.inl hthrow))

/-- Witness for C4: listener 1 throws, listener 2 still gets the value; one
further round is run and 1 is never invoked again. -/
theorem claim_C4_witness :
    (notifyAllFn (fun g : Nat => g == 1) (some .null)
        (⟨[1, 2], [], none, false⟩ : SelectorSt Nat)).invoked
      = [1, 2].map (fun g => (g, some JSVal.null)) ∧
    1 ∉ (notifyAllFn (fun g : Nat => g == 1) (some .null)
        (⟨[1, 2], [], none, false⟩ : SelectorSt Nat)).state.listeners ∧
    (runRounds (notifyAllFn (fun g : Nat => g == 1) (some .null)
        (⟨[1, 2], [], none, false⟩ : SelectorSt Nat)).state
      [(fun _ => false, some (.bool true))]).2.count 1 = 0 :=
  claim_C4_throwing_listener Nat _ _ _ 1 _ (by decide) (by decide) (by decide)
    (by decide)

/-- After a once-mode registration by a fresh listener, either nothing ran
immediately (and the listener sits registered in once mode in a duplicate-free
listener set), or it was invoked exactly once immediately and is already
deregistered. -/
theorem subscribe_once_cases {L : Type} [DecidableEq L] (behave : L → Bool)
    (compute : Option JSVal) (f : L) (runImm : Bool) (s : SelectorSt L)
    (hnodup : s.listeners.Nodup) (hfresh : f ∉ s.listeners) :
    ((subscribeFn behave compute f runImm true s).immediate = [] ∧
      f ∈ (subscribeFn behave compute f runImm true s).state.onceOnly ∧
      (subscribeFn behave compute f runImm true s).state.listeners.Nodup) ∨
    ((subscribeFn behave compute f runImm true s).immediate = [f] ∧
      f ∉ (subscribeFn behave compute f runImm true s).state.listeners) := by
  have hnodup1 : (s.listeners ++ [f]).Nodup := by
    simp [List.nodup_append, hnodup, hfresh]
  have honce1 : f ∈ s.onceOnly ++ [f] := by simp
  have hgone : f ∉ (s.listeners ++ [f]).erase f := hnodup1.not_mem_erase
  unfold subscribeFn
  rw [if_neg hfresh]
  by_cases hImm : runImm
  · by_cases hcached : s.cached
    · cases hv : s.value with
      | none =>
        refine .inl ?_
        simp [hImm, hcached, hv, honce1, hnodup1]
      | some v =>
        by_cases hb : behave f
        · refine .inr ?_
          simp [hImm, hcached, hv, hb, hgone]
        · refine .inr ?_
          simp [hImm, hcached, hv, hb, honce1, hgone]
    · cases hv : compute with
      | none =>
        refine .inl ?_
        simp [hImm, hcached, hv, honce1, hnodup1]
      | some v =>
        by_cases hb : behave f
        · refine .inr ?_
          simp [hImm, hcached, hv, hb, hgone]
        · refine .inr ?_
          simp [hImm, hcached, hv, hb, honce1, hgone]
  · refine .inl ?_
    simp [hImm, honce1, hnodup1]

/-- C5: a listener registered in once mode is invoked at most once in total:
counting a possible immediate invocation at registration time and every
subsequent `notifyAll` round, its invocation count never exceeds one,
whether its single invocation returns normally or throws. -/
theorem claim_C5_once_listener (L : Type) [DecidableEq L]
    (behave : L → Bool) (compute : Option JSVal) (f : L) (runImm : Bool)
    (s : SelectorSt L) (rounds : List ((L → Bool) × Option JSVal))
    (hnodup : s.listeners.Nodup) (hfresh : f ∉ s.listeners) :
    (subscribeFn behave compute f runImm true s).immediate.count f +
      (runRounds (subscribeFn behave compute f runImm true s).state
        rounds).2.count f ≤ 1 := by
  rcases subscribe_once_cases behave compute f runImm s hnodup hfresh with
    ⟨h1, h2, h3⟩ | ⟨h1, h2⟩
  · rw [h1]
    have := runRounds_once_le_one rounds _ f h3 h2
    simpa using this
  · rw [h1]
    have h0 := runRounds_not_mem rounds _ f h2
    simp [h0]

/-- Witness for C5: listener 3 registered in once mode with immediate run on
a fresh selector, followed by two qualifying rounds. -/
theorem claim_C5_witness :
    (subscribeFn (fun _ : Nat => false) (some .null) 3 true true
        (⟨[], [], none, false⟩ : SelectorSt Nat)).immediate.count 3 +
      (runRounds (subscribeFn (fun _ : Nat => false) (some .null) 3 true true
          (⟨[], [], none, false⟩ : SelectorSt Nat)).state
        [(fun _ => false, some (.num 1)), (fun _ => false, some (.num 2))]).2.count 3
      ≤ 1 :=
  claim_C5_once_listener Nat _ _ 3 true _ _ (by decide) (by decide)

/-! ### The Store registry and `Store.update` (`src/_internal/store.ts`)

A `Store` keeps an insertion-ordered map from the structural hash of a
`(projection, condition)` pair to the selector and its change signal.  The
signal is fully determined by the selector's Dependency Set (`expected`), so
an entry stores that set.  Selector object identity is modelled by the
numeric id `sid` handed out from the store's counter at creation time.
Listeners at the store level are identified by naturals. -/
structure SelEntry where
  hash : String
  sid : Nat
  expected : List String
  sel : SelectorSt Nat

structure StoreSt where
  entries : List SelEntry
  nextId : Nat
  modified : Bool

/-- A store with no selectors registered (the `modified` flag starts true). -/
def emptyStore : StoreSt := ⟨[], 0, true⟩

/-- Result record of `Store.update` (the `UpdateResult` interface). -/
structure UpdateRes where
  modified : Bool
  fields : Option (List String)
  notifyCount : Option Nat

/-- Per-selector notification loop of `Store.update`:

    for (const { selector, signal } of this.selectors.values()) {
      const size = selector.size;          // listeners before notification
      if (signal(fields)) notifyCount += size;
    }

`signal(fields)` tests `signalNotify` and, when it fires, runs the
selector's `notifyAll` (whose evaluator result for selector `sid` is
`compute sid`, and whose listener behaviour oracle is `behave`).  Returns the
updated entries, the notify count, every listener invocation `(sid,
listener)` in order, and the ids of the notified selectors. -/
def updEntries (behave : Nat → Bool) (compute : Nat → Option JSVal)
    (fields : List String) :
    List SelEntry → List SelEntry × Nat × List (Nat × Nat) × List Nat
  | [] => ([], 0, [], [])
  | en :: rest =>
    let size := en.sel.listeners.length
    if signalNotify en.expected fields then
      let out := notifyAllFn behave (compute en.sid) en.sel
      let r := updEntries behave compute fields rest
      ({ en with sel := out.state } :: r.1, size + r.2.1,
        out.invoked.map (fun p => (en.sid, p.1)) ++ r.2.2.1, en.sid :: r.2.2.2)
    else
      let r := updEntries behave compute fields rest
      (en :: r.1, r.2.1, r.2.2.1, r.2.2.2)

/--
Translation of `Store.update` (`src/_internal/store.ts`):

    update(expr, arrayFilters = [], condition = {}) {
      const query = mkQuery(condition, this.queryOptions);
      const fields = Array.from(new Set(
        ensureArray(expr).flatMap(e => this.mutate(this.state, e, arrayFilters, query))));
      if (!fields.length) return { modified: false };
      fields.sort();
      this.modified = true;
      let notifyCount = 0;
      for (const { selector, signal } of this.selectors.values()) { ... }
      return { modified: true, fields, notifyCount };
    }

The mutation itself is performed by the external mingo updater; its output —
the concatenation of the changed-path lists of the applied update
expressions — enters the model as the `rawFields` parameter.  The function
returns the update result, the new store, the listener invocations performed
and the ids of the notified selectors. -/
def storeUpdate (rawFields : List String) (behave : Nat → Bool)
    (compute : Nat → Option JSVal) (st : StoreSt) :
    UpdateRes × StoreSt × List (Nat × Nat) × List Nat :=
  let dedup := dedupJS rawFields
  if dedup.isEmpty then (⟨false, none, none⟩, st, [], [])
  else
    let fields := sortJS dedup
    let r := updEntries behave compute fields st.entries
    (⟨true, some fields, some r.2.1⟩,
      ⟨r.1, st.nextId, true⟩, r.2.2.1, r.2.2.2)

theorem updEntries_notified (behave : Nat → Bool) (compute : Nat → Option JSVal)
    (fields : List String) (entries : List SelEntry) :
    (updEntries behave compute fields entries).2.2.2 =
      (entries.filter fun en => signalNotify en.expected fields).map (·.sid) := by
  induction entries with
  | nil => rfl
  | cons en rest ih =>
    unfold updEntries
    by_cases h : signalNotify en.expected fields
    · simp [h, ih]
    · simp [h, ih]

theorem updEntries_count (behave : Nat → Bool) (compute : Nat → Option JSVal)
    (fields : List String) (entries : List SelEntry) :
    (updEntries behave compute fields entries).2.1 =
      (((entries.filter fun en => signalNotify en.expected fields).map
        (fun en => en.sel.listeners.length)).sum) := by
  induction entries with
  | nil => rfl
  | cons en rest ih =>
    unfold updEntries
    by_cases h : signalNotify en.expected fields
    · simp [h, ih]
    · simp [h, ih]

theorem sortJS_ne_nil {l : List String} (h : l ≠ []) : sortJS l ≠ [] := by
  rcases List.exists_mem_of_ne_nil l h with ⟨x, hx⟩
  intro hnil
  have := (mem_sortJS l x).mpr hx
  rw [hnil] at this
  cases this

theorem dedupJS_ne_nil {l : List String} (h : l ≠ []) : dedupJS l ≠ [] := by
  rcases List.exists_mem_of_ne_nil l h with ⟨x, hx⟩
  intro hnil
  have := (mem_dedupJS l x).mpr hx
  rw [hnil] at this
  cases this

/-- C1: for every modifying `Store.update` (at least one changed path) the
set of notified selectors — those whose `notifyAll` the store invokes — is
exactly the set of registered selectors whose change signal fires on the
sorted deduplicated changed-path list; and that signal fires precisely when
the selector's Dependency Set is empty (observe everything) or some changed
path is equal to, an ancestor of, or a descendant of some dependency path.
The changed list handed to the signals is duplicate-free and nonempty, and a
selector's Dependency Set is a JS `Set`, hence duplicate-free, so the side
conditions of the characterization hold at every real call site. -/
theorem claim_C1_update_notification :
    (∀ (rawFields : List String) (behave : Nat → Bool)
        (compute : Nat → Option JSVal) (st : StoreSt),
      rawFields ≠ [] →
      (storeUpdate rawFields behave compute st).2.2.2 =
        (st.entries.filter fun en =>
          signalNotify en.expected (sortJS (dedupJS rawFields))).map (·.sid) ∧
      (sortJS (dedupJS rawFields)).Nodup ∧
      sortJS (dedupJS rawFields) ≠ []) ∧
    (∀ (expected changed : List String), changed ≠ [] → changed.Nodup →
      expected.Nodup →
      (signalNotify expected changed = true ↔
        (expected = [] ∨
          ∃ c ∈ changed, ∃ v ∈ expected, pathRelated c v = true))) := by
  constructor
  · intro rawFields behave compute st hne
    have hd : dedupJS rawFields ≠ [] := dedupJS_ne_nil hne
    have hdf : (dedupJS rawFields).isEmpty = false := by
      cases h : (dedupJS rawFields).isEmpty
      · rfl
      · exact absurd (List.isEmpty_iff.mp h) hd
    refine ⟨?_, nodup_sortJS _ (nodup_dedupJS _), sortJS_ne_nil hd⟩
    unfold storeUpdate
    simp only [hdf, Bool.false_eq_true, if_false]
    exact updEntries_notified behave compute _ st.entries
  · intro expected changed h1 h2 h3
    exact signalNotify_iff expected changed h1 h2 h3

/-- Witness for C1: a store with one selector depending on `a`, updated with
raw changed paths `["b", "a", "b"]`, plus the signal characterization at a
descendant path. -/
theorem claim_C1_witness :
    ((storeUpdate ["b", "a", "b"] (fun _ => false) (fun _ => none)
        (⟨[⟨"h", 0, ["a"], ⟨[], [], none, false⟩⟩], 1, true⟩ : StoreSt)).2.2.2 =
      ((⟨[⟨"h", 0, ["a"], ⟨[], [], none, false⟩⟩], 1, true⟩ : StoreSt).entries.filter
        fun en =>
          signalNotify en.expected (sortJS (dedupJS ["b", "a", "b"]))).map (·.sid) ∧
      (sortJS (dedupJS ["b", "a", "b"])).Nodup ∧
      sortJS (dedupJS ["b", "a", "b"]) ≠ []) ∧
    (signalNotify ["a.b"] ["a.b.c"] = true ↔
      (["a.b"] = ([] : List String) ∨
        ∃ c ∈ ["a.b.c"], ∃ v ∈ ["a.b"], pathRelated c v = true)) :=
  ⟨claim_C1_update_notification.1 ["b", "a", "b"] _ _ _ (by decide),
   claim_C1_update_notification.2 ["a.b"] ["a.b.c"] (by decide) (by decide)
     (by decide)⟩

/-- C8 (amended): every `Store.update` returns a result where: if the
mutation changed no path, `modified` is false, the store is untouched and no
selector is notified and no listener invoked; otherwise `modified` is true,
`fields` is the duplicate-free ascending-sorted list of the changed paths
reported by the updater, and `notifyCount` is the sum, over the selectors
whose change signal fired, of their listener counts taken immediately before
their notification (which can exceed the number of listener invocations
actually performed: a notified selector whose recomputed value deep-equals
its previous value invokes nobody yet still contributes its listener
count). -/
theorem claim_C8_update_result (rawFields : List String) (behave : Nat → Bool)
    (compute : Nat → Option JSVal) (st : StoreSt) :
    (rawFields = [] →
      storeUpdate rawFields behave compute st =
        (⟨false, none, none⟩, st, [], [])) ∧
    (rawFields ≠ [] →
      (storeUpdate rawFields behave compute st).1.modified = true ∧
      ∃ fs, (storeUpdate rawFields behave compute st).1.fields = some fs ∧
        fs.Nodup ∧ (fs.Pairwise fun a b => strLe a b = true) ∧
        (∀ x, x ∈ fs ↔ x ∈ rawFields) ∧
        (storeUpdate rawFields behave compute st).1.notifyCount =
          some (((st.entries.filter fun en =>
            signalNotify en.expected fs).map
              (fun en => en.sel.listeners.length)).sum)) := by
  constructor
  · intro h
    subst h
    rfl
  · intro hne
    have hd : dedupJS rawFields ≠ [] := dedupJS_ne_nil hne
    have hdf : (dedupJS rawFields).isEmpty = false := by
      cases h : (dedupJS rawFields).isEmpty
      · rfl
      · exact absurd (List.isEmpty_iff.mp h) hd
    refine ⟨?_, sortJS (dedupJS rawFields), ?_, ?_, ?_, ?_, ?_⟩
    · unfold storeUpdate
      simp only [hdf, Bool.false_eq_true, if_false]
    · unfold storeUpdate
      simp only [hdf, Bool.false_eq_true, if_false]
    · exact nodup_sortJS _ (nodup_dedupJS _)
    · exact sorted_sortJS _
    · intro x
      rw [mem_sortJS, mem_dedupJS]
    · unfold storeUpdate
      simp only [hdf, Bool.false_eq_true, if_false]
      rw [updEntries_count]

/-! ### Models of the mingo utility functions used by the analyzer

`getDependentPaths` (`src/_internal/util.ts`) leans on a handful of mingo
utilities: `isOperator`, `isObject`/`isArray`/`isString`/`isNumber`,
`resolve`, and property access.  They are modelled here following the mingo
sources (v6.x, the version pinned by the package). -/

/-- Value type predicates (mingo `isObject` is the plain-object test, so
arrays and `null` are excluded). -/
def isObjV : JSVal → Bool
  | .obj _ => true
  | _ => false

def isArrV : JSVal → Bool
  | .arr _ => true
  | _ => false

def isNumV : JSVal → Bool
  | .num _ => true
  | _ => false

/-- JS truthiness (`filter(Boolean)`). -/
def isTruthy : JSVal → Bool
  | .str s => !(s == "")
  | .num n => !(n == 0)
  | .bool b => b
  | .null => false
  | .arr _ => true
  | .obj _ => true

/-- `typeof v === "object"` (objects, arrays and `null`). -/
def typeofObject : JSVal → Bool
  | .obj _ | .arr _ | .null => true
  | _ => false

/-- mingo `JS_SIMPLE_TYPES` membership (null/boolean/number/string; dates and
regexps are outside the JSON model). -/
def isSimpleType : JSVal → Bool
  | .str _ | .num _ | .bool _ | .null => true
  | .arr _ | .obj _ => false

/-- `/^\d+$/` -/
def isDigitsStr (s : String) : Bool :=
  !(s.data.isEmpty) && s.data.all Char.isDigit

/-- Numeric value of a digit string. -/
def natOfDigits (s : String) : Nat :=
  s.data.foldl (fun n c => n * 10 + (c.toNat - 48)) 0

def joFind : JSObj → String → Option JSVal
  | .nil, _ => none
  | .cons k v rest, key => if k == key then some v else joFind rest key

def jlGet : JSList → Nat → Option JSVal
  | .nil, _ => none
  | .cons v _, 0 => some v
  | .cons _ rest, n + 1 => jlGet rest n

/-- mingo `getValue(obj, field)`: property access on object-likes (objects by
key, arrays by numeric index), `undefined` elsewhere. -/
def getValue : JSVal → String → Option JSVal
  | .obj kvs, k => joFind kvs k
  | .arr xs, k => if isDigitsStr k then jlGet xs (natOfDigits k) else none
  | _, _ => none

def jlFilterMap (g : JSVal → Option JSVal) : JSList → JSList
  | .nil => .nil
  | .cons v rest =>
    match g v with
    | some w => .cons w (jlFilterMap g rest)
    | none => jlFilterMap g rest

/-- JS `selector.split(".")` on the character list. -/
def splitDotAux : List Char → List Char → List String
  | [], acc => [String.mk acc.reverse]
  | c :: cs, acc =>
    if c == '.' then String.mk acc.reverse :: splitDotAux cs []
    else splitDotAux cs (c :: acc)

def splitDot (s : String) : List String := splitDotAux s.data []

/--
Model of mingo `resolve` (its inner `resolve2` loop), fuelled by value size:

    function resolve2(o, path) {
      let value = o;
      for (let i = 0; i < path.length; i++) {
        const field = path[i];
        const isText = /^\d+$/.exec(field) === null;
        if (isText && isArray(value)) {
          if (i === 0 && depth > 0) break;
          depth += 1;
          const subpath = path.slice(i);
          value = value.reduce((acc, item) => {
            const v = resolve2(item, subpath);
            if (v !== undefined) acc.push(v);
            return acc;
          }, []);
          break;
        } else { value = getValue(value, field); }
        if (value === undefined) break;
      }
      return value;
    }

`first` tracks `i === 0` for the current invocation; `none` is `undefined`.
The fuel argument strictly dominates the value size, so with fuel
`jsize v` the `0`-fuel branch is unreachable (see `resolveStep_stable`).
-/
def resolveStep : Nat → JSVal → List String → Bool → Nat → Option JSVal
  | 0, _, _, _, _ => none
  | _ + 1, v, [], _, _ => some v
  | n + 1, v, f :: rest, first, depth =>
    match v with
    | .arr xs =>
      if isDigitsStr f then
        match jlGet xs (natOfDigits f) with
        | none => none
        | some w => resolveStep n w rest false depth
      else if first && !(depth == 0) then some (.arr xs)
      else some (.arr (jlFilterMap
        (fun it => resolveStep n it (f :: rest) true (depth + 1)) xs))
    | _ =>
      match getValue v f with
      | none => none
      | some w => resolveStep n w rest false depth

/-- mingo `resolve(obj, selector)`: simple types are returned as-is, else the
loop above runs on the dotted path. -/
def resolveFn (o : JSVal) (sel : String) : Option JSVal :=
  if isSimpleType o then some o
  else resolveStep (jsize o) o (splitDot sel) true 0

/-- mingo `isOperator`: `/^\$[a-zA-Z0-9_]+$/`. -/
def isOpChar (c : Char) : Bool := c.isAlpha || c.isDigit || c == '_'

def isOperatorStr (s : String) : Bool :=
  match s.data with
  | '$' :: c :: rest => (c :: rest).all isOpChar
  | _ => false

/-- Names exported by `mingo/operators/update` (`has(updateOperators, key)`). -/
def updateOpNames : List String :=
  ["$addToSet", "$bit", "$currentDate", "$inc", "$max", "$min", "$mul",
   "$pop", "$pull", "$pullAll", "$push", "$rename", "$set", "$unset"]

/-- Names exported by `mingo/operators/projection`. -/
def projOpNames : List String := ["$elemMatch", "$slice"]

/-- The `KEYED_OPERATORS_MAP` of `src/_internal/util.ts`. -/
def keyedNodes : String → Option (List String)
  | "$cond" => some ["if", "then", "else", "0", "1", "2"]
  | "$switch" => some ["branches.case", "branches.then", "default"]
  | "$filter" => some ["input", "cond", "limit"]
  | "$map" => some ["input", "in"]
  | _ => none

/-- `opts.nodes.map(s => resolve(val, s)).filter(Boolean)`. -/
def keyedPieces (val : JSVal) (nodes : List String) : List JSVal :=
  nodes.filterMap fun s =>
    match resolveFn val s with
    | some v => if isTruthy v then some v else none
    | none => none

/-- `peekOperator` of `src/_internal/util.ts`: a single-key object whose key
is an operator. -/
def peekOperator : JSVal → Option String
  | .obj (.cons k _ .nil) => if isOperatorStr k then some k else none
  | _ => none

/-- `notProjectExpression` of `src/_internal/util.ts`:

    const notProjectExpression = (o) =>
      o !== 1 && o !== true && !isObject(o) && !isArray(o) &&
      !(isString(o) && o.startsWith("$"));
-/
def notProjectExpression : JSVal → Bool
  | .num n => !(n == 1)
  | .bool b => !b
  | .obj _ => false
  | .arr _ => false
  | .str s => !(startsW s "$")
  | .null => true

/-- Modelled from the spec: `isProjectExpression` is imported by `store.ts`
from `./util` but its definition is not among the provided sources.  Spec
section 4.2 says a value only counts as a projection-like expression if it is
`1`, `true`, an object, an array, or a field-reference string; this is
exactly the negation of `notProjectExpression`, which is present in the
sources, and agrees with the repository test that accepts the projection
`{ secondChild: "$children.1" }`. -/
def isProjectExpression (v : JSVal) : Bool := !(notProjectExpression v)

/-- The `$slice` disambiguation test of `getDependentPaths`
(`isArray(valObj["$slice"]) && !isNumber(valObj["$slice"][0])`). -/
def sliceAux : Option JSVal → Bool
  | some (.arr .nil) => true
  | some (.arr (.cons w _)) => !(isNumV w)
  | _ => false

def sliceExprFlavor : JSVal → Bool
  | .obj kvs => sliceAux (joFind kvs "$slice")
  | _ => false

/-- JS `Set.prototype.add`: append if absent. -/
def addU (acc : List String) (v : String) : List String :=
  if v ∈ acc then acc else acc ++ [v]

/-- `other.forEach(v => result.add(v))`. -/
def sunion (acc : List String) (l : List String) : List String := l.foldl addU acc

def jlFoldDeps (g : JSVal → List String) : JSList → List String → List String
  | .nil, acc => acc
  | .cons v rest, acc => jlFoldDeps g rest (sunion acc (g v))

def joFoldDeps (g : String → JSVal → List String) : JSObj → List String → List String
  | .nil, acc => acc
  | .cons k v rest, acc => joFoldDeps g rest (sunion acc (g k v))

/--
The per-entry logic of the `Object` case of `getDependentPaths`
(`src/unnamed/part_005`, lines 80-150), with the recursive calls abstracted
into `rec` (instantiated with the analyzer at one fuel step down):

  - a `$literal` entry is skipped;
  - an operator key resolves the keyed argument slots of
    `KEYED_OPERATORS_MAP` when the value is `typeof "object"` and recurses
    into each resolved piece (the source packs the pieces into a fresh array
    `val2` and recurses on it, whose Array case folds over the pieces — the
    fold is inlined here), passing the operator as parent when it is a
    top-level update operator;
  - a plain key under an update-operator parent recurses with the key as the
    new parent;
  - a plain root key is skipped in root-excluding mode when its value is not
    projection-shaped;
  - otherwise the joined ancestor is computed, suppressed when a peeked
    single-operator value is a top-level non-projection operator or an
    expression-flavoured `$slice`, and the analyzer recurses into the value.
-/
def entryParent2 (parent : Option String) (k : String) : Option String :=
  if parent.isNone && updateOpNames.contains k then some k else parent

/-- `parent ? parent + "." + key : key`. -/
def joinKey (parent : Option String) (k : String) : String :=
  match parent with
  | some p => p ++ "." ++ k
  | none => k

/-- The `parent && isOperator(parent) && UPDATE_OPERATORS.includes(parent)`
test of the plain-key arm. -/
def underUpdateOp : Option String → Bool
  | some p => isOperatorStr p && updateOpNames.contains p
  | none => false

/-- The ancestor passed down when recursing into a plain entry: suppressed
when a peeked single-operator value is a top-level non-projection operator or
an expression-flavoured `$slice`. -/
def entryAncestor (incl : Bool) (parent : Option String) (k : String)
    (val : JSVal) : Option String :=
  match peekOperator val with
  | some op =>
    if !incl &&
        ((parent.isNone && !(projOpNames.contains op)) ||
         (parent.isSome && op == "$slice") ||
         (parent.isNone && op == "$slice" && sliceExprFlavor val))
    then none
    else some (joinKey parent k)
  | none => some (joinKey parent k)

def entryDeps (rec : JSVal → Option String → List String) (incl : Bool)
    (parent : Option String) (k : String) (val : JSVal) : List String :=
  if k == "$literal" then []
  else if isOperatorStr k then
    match keyedNodes k with
    | some nodes =>
      if typeofObject val then
        (keyedPieces val nodes).foldl
          (fun acc p => sunion acc (rec p (entryParent2 parent k))) []
      else rec val (entryParent2 parent k)
    | none => rec val (entryParent2 parent k)
  else if underUpdateOp parent then
    rec val (some k)
  else if !incl && parent.isNone && notProjectExpression val then []
  else rec val (entryAncestor incl parent k val)
/--
Fuelled translation of `getDependentPaths` (`src/unnamed/part_005`).  The
fuel only serves Lean's termination (resolved keyed pieces are not structural
subterms); `getDepsFuel_stable` shows any fuel at least `jsize e` computes
the same set, so `getDependentPaths` below is fuel-independent.

    switch (getType(expr)) {
      case "String":
        if (expr.startsWith("$$")) return result;
        else if (expr.startsWith("$")) result.add(expr.substring(1));
        else if (parent && !isOperator(parent)) result.add(parent);
        break;
      case "Array": ... union of element results ...
      case "Object": ... entryDeps above for each entry ...
      default: if (parent) result.add(parent);
    }
-/
def getDepsFuel : Nat → JSVal → Bool → Option String → List String
  | 0, _, _, _ => []
  | n + 1, e, incl, parent =>
    match e with
    | .str s =>
      if startsW s "$$" then []
      else if startsW s "$" then [String.mk (s.data.drop 1)]
      else
        match parent with
        | some p => if isOperatorStr p then [] else [p]
        | none => []
    | .arr xs => jlFoldDeps (fun v => getDepsFuel n v incl parent) xs []
    | .obj kvs =>
      joFoldDeps
        (fun k v => entryDeps (fun w pr => getDepsFuel n w incl pr) incl parent k v)
        kvs []
    | _ =>
      match parent with
      | some p => [p]
      | none => []

/-- `getDependentPaths(expr, { includeRootFields })` — the exported analyzer
(its internal `__parent` option starts absent). -/
def getDependentPaths (e : JSVal) (incl : Bool) : List String :=
  getDepsFuel (jsize e) e incl none

/-! ### `Store.select` (`src/_internal/store.ts`) -/

-- Deterministic structural serializer standing in for mingo `stringify`
-- (used only as a memoization key: equal values always serialize equally).
-- Object bodies are wrapped in parentheses.
mutual
def stringifyV : JSVal → String
  | .str s => "\"" ++ s ++ "\""
  | .num n => toString n
  | .bool b => if b then "true" else "false"
  | .null => "null"
  | .arr xs => "[" ++ stringifyL xs ++ "]"
  | .obj kvs => "(" ++ stringifyO kvs ++ ")"

def stringifyL : JSList → String
  | .nil => ""
  | .cons v .nil => stringifyV v
  | .cons v rest => stringifyV v ++ "," ++ stringifyL rest

def stringifyO : JSObj → String
  | .nil => ""
  | .cons k v .nil => k ++ ":" ++ stringifyV v
  | .cons k v rest => k ++ ":" ++ stringifyV v ++ "," ++ stringifyO rest
end

def joHasOpKey : JSObj → Bool
  | .nil => false
  | .cons k _ rest => isOperatorStr k || joHasOpKey rest

/-- Model of mingo `normalize`: simple values and operator-free object-likes
become `{ $eq: v }`; an object with an operator key passes through (the
`$regex` fixup concerns regexps, outside the JSON model). -/
def normalizeV (v : JSVal) : JSVal :=
  match v with
  | .obj kvs =>
    if joHasOpKey kvs then .obj kvs
    else .obj (.cons "$eq" (.obj kvs) .nil)
  | .arr xs => .obj (.cons "$eq" (.arr xs) .nil)
  | w => .obj (.cons "$eq" w .nil)

/-- `Object.entries(condition).reduce((m, [k, v]) => { m[k] = normalize(v); ... })`. -/
def normalizeEntries : JSObj → JSObj
  | .nil => .nil
  | .cons k v rest => .cons k (normalizeV v) (normalizeEntries rest)

/-- `v === 0 || v === false` (the negation of the first `assert`). -/
def isExclusionMarker : JSVal → Bool
  | .num n => n == 0
  | .bool b => !b
  | _ => false

/-- The validation loop at the top of `Store.select`:

    for (const v of Object.values(projection)) {
      assert(v !== 0 && v !== false, "field exclusion not allowed");
      assert(isProjectExpression(v), "selector projection value must be ...");
    }
-/
def validateProjection : JSObj → Except String Unit
  | .nil => .ok ()
  | .cons _ v rest =>
    if isExclusionMarker v then .error "field exclusion not allowed"
    else if !(isProjectExpression v) then
      .error "selector projection value must be an object, array, true, or 1"
    else validateProjection rest

/-- `stringify([projection, condition])`. -/
def selectHash (projection condition : JSObj) : String :=
  stringifyV (.arr (.cons (.obj projection) (.cons (.obj condition) .nil)))

/-- The Dependency Set computed by `select`: paths of the normalized
condition (root-inclusive) united with paths of the projection
(root-exclusive). -/
def selectExpected (projection condition : JSObj) : List String :=
  sunion (getDependentPaths (.obj (normalizeEntries condition)) true)
    (getDependentPaths (.obj projection) false)

/--
Translation of `Store.select` (`src/_internal/store.ts`): validate the
projection, hash the frozen `(projection, condition)` pair, return the
already-registered selector on a hash hit, otherwise build the Dependency
Set and register a fresh selector (empty listener sets, nothing cached)
under the next selector id.  Raised assertions surface as `.error` before
any registration.  (`cloneFrozen` only protects against aliasing and is the
identity on values.)
-/
def storeSelect (projection condition : JSObj) (st : StoreSt) :
    Except String (Nat × StoreSt) :=
  match validateProjection projection with
  | .error e => .error e
  | .ok _ =>
    match st.entries.find? (fun en => en.hash == selectHash projection condition) with
    | some en => .ok (en.sid, st)
    | none =>
      .ok (st.nextId,
        ⟨st.entries ++
          [⟨selectHash projection condition, st.nextId,
            selectExpected projection condition, ⟨[], [], none, false⟩⟩],
          st.nextId + 1, st.modified⟩)

theorem storeSelect_error (projection condition : JSObj) (st : StoreSt)
    (e : String) (hv : validateProjection projection = .error e) :
    storeSelect projection condition st = .error e := by
  unfold storeSelect
  rw [hv]

theorem storeSelect_hit (projection condition : JSObj) (st : StoreSt)
    (en : SelEntry) (u : Unit)
    (hv : validateProjection projection = .ok u)
    (hf : st.entries.find?
      (fun en => en.hash == selectHash projection condition) = some en) :
    storeSelect projection condition st = .ok (en.sid, st) := by
  unfold storeSelect
  rw [hv, hf]

theorem storeSelect_miss (projection condition : JSObj) (st : StoreSt)
    (u : Unit)
    (hv : validateProjection projection = .ok u)
    (hf : st.entries.find?
      (fun en => en.hash == selectHash projection condition) = none) :
    storeSelect projection condition st = .ok (st.nextId,
      ⟨st.entries ++
        [⟨selectHash projection condition, st.nextId,
          selectExpected projection condition, ⟨[], [], none, false⟩⟩],
        st.nextId + 1, st.modified⟩) := by
  unfold storeSelect
  rw [hv, hf]

/-- C6: `select` is memoized by the structural content of the
`(projection, condition)` pair — a second call with the same pair returns
the identical selector (same id) and leaves the store unchanged, so at most
one selector exists per distinct spec. -/
theorem claim_C6_select_memoized (projection condition : JSObj) (st : StoreSt)
    (sid : Nat) (st1 : StoreSt)
    (h : storeSelect projection condition st = .ok (sid, st1)) :
    storeSelect projection condition st1 = .ok (sid, st1) := by
  cases hv : validateProjection projection with
  | error e =>
    rw [storeSelect_error projection condition st e hv] at h
    cases h
  | ok u =>
    cases hf : st.entries.find?
        (fun en => en.hash == selectHash projection condition) with
    | some en =>
      rw [storeSelect_hit projection condition st en u hv hf] at h
      injection h with h2
      have hsid : en.sid = sid := congrArg Prod.fst h2
      have hst : st = st1 := congrArg Prod.snd h2
      subst hst
      rw [storeSelect_hit projection condition st en u hv hf, hsid]
    | none =>
      rw [storeSelect_miss projection condition st u hv hf] at h
      injection h with h2
      have hsid : st.nextId = sid := congrArg Prod.fst h2
      have hst : (⟨st.entries ++
          [⟨selectHash projection condition, st.nextId,
            selectExpected projection condition, ⟨[], [], none, false⟩⟩],
          st.nextId + 1, st.modified⟩ : StoreSt) = st1 := congrArg Prod.snd h2
      subst hst
      have hf2 : ((⟨st.entries ++
          [⟨selectHash projection condition, st.nextId,
            selectExpected projection condition, ⟨[], [], none, false⟩⟩],
          st.nextId + 1, st.modified⟩ : StoreSt)).entries.find?
            (fun en => en.hash == selectHash projection condition) =
          some ⟨selectHash projection condition, st.nextId,
            selectExpected projection condition, ⟨[], [], none, false⟩⟩ := by
        show (st.entries ++ [_]).find? _ = _
        rw [List.find?_append, hf]
        simp
      rw [storeSelect_hit projection condition _ _ u hv hf2, hsid]

/-- Witness for C6: selecting `{ a: 1 }` with an empty condition twice on an
initially empty store. -/
theorem claim_C6_witness :
    storeSelect (.cons "a" (.num 1) .nil) .nil
      (⟨[⟨selectHash (.cons "a" (.num 1) .nil) .nil, 0,
          selectExpected (.cons "a" (.num 1) .nil) .nil,
          ⟨[], [], none, false⟩⟩], 1, true⟩ : StoreSt) =
    .ok (0,
      (⟨[⟨selectHash (.cons "a" (.num 1) .nil) .nil, 0,
          selectExpected (.cons "a" (.num 1) .nil) .nil,
          ⟨[], [], none, false⟩⟩], 1, true⟩ : StoreSt)) :=
  claim_C6_select_memoized (.cons "a" (.num 1) .nil) .nil emptyStore 0 _ rfl

def joValues : JSObj → List JSVal
  | .nil => []
  | .cons _ v rest => v :: joValues rest

/-- The well-formedness predicate exactly as claim C7 words it: "an object,
an array, true, or 1" (for comparison with the code's `isProjectExpression`,
which additionally accepts field-reference strings). -/
def specWellFormedProjValue : JSVal → Bool
  | .num n => n == 1
  | .bool b => b
  | .obj _ => true
  | .arr _ => true
  | _ => false

/-- C7 counterexample: the projection value `"$children.1"` — taken from the
repository's own test suite — is neither an object, an array, `true` nor
`1`, yet `Store.select` accepts it without raising (it is a field-reference
string, which `isProjectExpression` admits).  So "raises an error whenever
some projection value ... is not an object, an array, true, or 1" is false
as stated. -/
theorem claim_C7_counterexample :
    specWellFormedProjValue (.str "$children.1") = false ∧
    (storeSelect (.cons "secondChild" (.str "$children.1") .nil)
      (.cons "age" (.obj (.cons "$lt" (.num 25) .nil)) .nil)
      emptyStore).isOk = true := by
  constructor
  · rfl
  · rfl

theorem validate_error_iff : ∀ (projection : JSObj),
    (∃ msg, validateProjection projection = .error msg) ↔
      ∃ v ∈ joValues projection,
        (isExclusionMarker v = true ∨ isProjectExpression v = false)
  | .nil => by
    constructor
    · rintro ⟨msg, hmsg⟩; cases hmsg
    · rintro ⟨v, hv, _⟩; cases hv
  | .cons k v rest => by
    have ih := validate_error_iff rest
    constructor
    · rintro ⟨msg, hmsg⟩
      unfold validateProjection at hmsg
      by_cases h1 : isExclusionMarker v
      · exact ⟨v, .head _, .inl h1⟩
      · rw [if_neg (by simp [h1])] at hmsg
        by_cases h2 : isProjectExpression v
        · rw [if_neg (by simp [h2])] at hmsg
          rcases ih.mp ⟨msg, hmsg⟩ with ⟨w, hw, hbad⟩
          exact ⟨w, .tail _ hw, hbad⟩
        · exact ⟨v, .head _, .inr (by simpa using h2)⟩
    · rintro ⟨w, hw, hbad⟩
      unfold validateProjection
      by_cases h1 : isExclusionMarker v
      · exact ⟨_, by rw [if_pos (by simpa using h1)]⟩
      · rw [if_neg (by simp [h1])]
        by_cases h2 : isProjectExpression v
        · rw [if_neg (by simp [h2])]
          apply ih.mpr
          rcases List.mem_cons.mp hw with rfl | hw2
          · rcases hbad with hb | hb
            · exact absurd hb (by simpa using h1)
            · exact absurd hb (by simp [h2])
          · exact ⟨w, hw2, hbad⟩
        · exact ⟨_, by rw [if_pos (by simpa using h2)]⟩

/-- C7 (amended): `Store.select` raises synchronously, registering no
selector, exactly when some projection value is an exclusion marker (`0` or
`false`) or is not a well-formed projection expression — that is, not an
object, an array, `true`, `1`, or a field-reference string starting with
`"$"` (`isProjectExpression`).  The error is an `Except.error` produced
before any registration step, so the store is untouched. -/
theorem claim_C7_select_validation (projection condition : JSObj)
    (st : StoreSt) :
    (∃ msg, storeSelect projection condition st = .error msg) ↔
      ∃ v ∈ joValues projection,
        (isExclusionMarker v = true ∨ isProjectExpression v = false) := by
  have hval := validate_error_iff projection
  constructor
  · rintro ⟨msg, hmsg⟩
    apply hval.mp
    cases hv : validateProjection projection with
    | error e =>
      exact ⟨e, rfl⟩
    | ok u =>
      exfalso
      cases hf : st.entries.find?
          (fun en => en.hash == selectHash projection condition) with
      | some en =>
        rw [storeSelect_hit projection condition st en u hv hf] at hmsg
        cases hmsg
      | none =>
        rw [storeSelect_miss projection condition st u hv hf] at hmsg
        cases hmsg
  · intro hbad
    rcases hval.mpr hbad with ⟨msg, hmsg⟩
    exact ⟨msg, storeSelect_error projection condition st msg hmsg⟩

/-- Witness for C7 (amended): a projection with the exclusion marker `0` is
rejected, on a concrete store. -/
theorem claim_C7_witness :
    (∃ msg, storeSelect (.cons "a" (.num 0) .nil) .nil emptyStore = .error msg) ↔
      ∃ v ∈ joValues (.cons "a" (.num 0) .nil),
        (isExclusionMarker v = true ∨ isProjectExpression v = false) :=
  claim_C7_select_validation (.cons "a" (.num 0) .nil) .nil emptyStore

/-- `selector.subscribe(listener, options)` on the store's selector `sid`
(the selector objects live in the store's registry; subscribing mutates that
selector's listener sets). -/
def storeSubscribe (sid f : Nat) (runImm runOnce : Bool) (behave : Nat → Bool)
    (compute : Option JSVal) (st : StoreSt) : StoreSt :=
  ⟨st.entries.map fun en =>
      if en.sid == sid then
        { en with sel := (subscribeFn behave compute f runImm runOnce en.sel).state }
      else en,
    st.nextId, st.modified⟩

/-- `selector.getState()` on the store's selector `sid`: serves the cached
value, otherwise consults the evaluator (result `compute`) and caches it. -/
def storeSelGetState (sid : Nat) (compute : Option JSVal) (st : StoreSt) :
    StoreSt :=
  ⟨st.entries.map fun en =>
      if en.sid == sid then
        { en with sel := if en.sel.cached then en.sel
                         else { en.sel with cached := true, value := compute } }
      else en,
    st.nextId, st.modified⟩

/-- C8 counterexample.  Trace: select the view `{ b: 1 }` under the
condition `{ a: { $gt: 3 } }` (Dependency Set `{a, b}`), subscribe listener
`7`, read the selector once (caching the projected value `{ b: 5 }`), then
update with changed path `a` while the projected value stays `{ b: 5 }`
(e.g. `a` goes from 4 to 5, keeping the condition true and `b` untouched).
The selector's signal fires, so `notifyCount` is `1`, yet `notifyAll` skips
the fan-out because the recomputed value deep-equals the cached one — zero
listener invocations are performed.  This refutes "notifyCount is the
number of listener invocations performed" as stated. -/
theorem claim_C8_counterexample :
    storeSelect (.cons "b" (.num 1) .nil)
        (.cons "a" (.obj (.cons "$gt" (.num 3) .nil)) .nil) emptyStore =
      .ok (0,
        (⟨[⟨selectHash (.cons "b" (.num 1) .nil)
              (.cons "a" (.obj (.cons "$gt" (.num 3) .nil)) .nil), 0,
            ["a", "b"], ⟨[], [], none, false⟩⟩], 1, true⟩ : StoreSt)) ∧
    storeSelGetState 0 (some (.obj (.cons "b" (.num 5) .nil)))
        (storeSubscribe 0 7 false false (fun _ => false) none
          (⟨[⟨selectHash (.cons "b" (.num 1) .nil)
                (.cons "a" (.obj (.cons "$gt" (.num 3) .nil)) .nil), 0,
              ["a", "b"], ⟨[], [], none, false⟩⟩], 1, true⟩ : StoreSt)) =
      (⟨[⟨selectHash (.cons "b" (.num 1) .nil)
            (.cons "a" (.obj (.cons "$gt" (.num 3) .nil)) .nil), 0,
          ["a", "b"], ⟨[7], [], some (.obj (.cons "b" (.num 5) .nil)), true⟩⟩],
        1, true⟩ : StoreSt) ∧
    (storeUpdate ["a"] (fun _ => false)
        (fun _ => some (.obj (.cons "b" (.num 5) .nil)))
        (⟨[⟨selectHash (.cons "b" (.num 1) .nil)
              (.cons "a" (.obj (.cons "$gt" (.num 3) .nil)) .nil), 0,
            ["a", "b"], ⟨[7], [], some (.obj (.cons "b" (.num 5) .nil)), true⟩⟩],
          1, true⟩ : StoreSt)).1.notifyCount = some 1 ∧
    (storeUpdate ["a"] (fun _ => false)
        (fun _ => some (.obj (.cons "b" (.num 5) .nil)))
        (⟨[⟨selectHash (.cons "b" (.num 1) .nil)
              (.cons "a" (.obj (.cons "$gt" (.num 3) .nil)) .nil), 0,
            ["a", "b"], ⟨[7], [], some (.obj (.cons "b" (.num 5) .nil)), true⟩⟩],
          1, true⟩ : StoreSt)).2.2.1 = [] :=
  ⟨rfl, rfl, rfl, rfl⟩

/-- Witness for the amended C8: a no-op update, and a modifying update on a
one-selector store. -/
theorem claim_C8_witness :
    (storeUpdate [] (fun _ => false) (fun _ => none)
        (⟨[⟨"h", 0, ["a"], ⟨[3], [], none, false⟩⟩], 1, true⟩ : StoreSt) =
      (⟨false, none, none⟩, ⟨[⟨"h", 0, ["a"], ⟨[3], [], none, false⟩⟩], 1, true⟩,
        [], [])) ∧
    ((storeUpdate ["a", "a"] (fun _ => false) (fun _ => none)
        (⟨[⟨"h", 0, ["a"], ⟨[3], [], none, false⟩⟩], 1, true⟩ : StoreSt)).1.modified
      = true ∧
     ∃ fs, (storeUpdate ["a", "a"] (fun _ => false) (fun _ => none)
        (⟨[⟨"h", 0, ["a"], ⟨[3], [], none, false⟩⟩], 1, true⟩ : StoreSt)).1.fields
          = some fs ∧
        fs.Nodup ∧ (fs.Pairwise fun a b => strLe a b = true) ∧
        (∀ x, x ∈ fs ↔ x ∈ ["a", "a"]) ∧
        (storeUpdate ["a", "a"] (fun _ => false) (fun _ => none)
          (⟨[⟨"h", 0, ["a"], ⟨[3], [], none, false⟩⟩], 1, true⟩ : StoreSt)).1.notifyCount
          = some ((((⟨[⟨"h", 0, ["a"], ⟨[3], [], none, false⟩⟩], 1, true⟩ :
              StoreSt)).entries.filter fun en =>
                signalNotify en.expected fs).map
                  (fun en => en.sel.listeners.length)).sum) :=
  ⟨(claim_C8_update_result [] _ _ _).1 rfl,
   (claim_C8_update_result ["a", "a"] _ _ _).2 (by decide)⟩

/-! ### The Update Application Engine (`src/_internal/util.ts`) -/

/-- A tokenized update-selector node (`PathNode` of `src/_internal/util.ts`):
the segments before an array-filter placeholder, the optional placeholder
identifier (`"$"` for the unnamed all-elements form), and the chained rest. -/
inductive PathNode : Type where
  | mk (parent : String) (child : Option String) (next : Option PathNode) :
      PathNode

def nodeDepth : PathNode → Nat
  | .mk _ _ none => 1
  | .mk _ _ (some nx) => 1 + nodeDepth nx

theorem nodeDepth_pos (n : PathNode) : 1 ≤ nodeDepth n := by
  cases n with
  | mk p c next =>
    cases next with
    | none => exact le_refl 1
    | some nx => simp [nodeDepth]

/-- `isNil` (null or undefined). -/
def isNilOpt : Option JSVal → Bool
  | none => true
  | some .null => true
  | some _ => false

def jlFoldCalls (g : JSVal → List (JSVal × String)) :
    JSList → List (JSVal × String)
  | .nil => []
  | .cons v rest => g v ++ jlFoldCalls g rest

/--
Model of mingo `walk(obj, selector, fn, options)`, recording the
`(container, key)` sites at which the mutation callback `fn` runs:

    const names = selector.split(".");
    const key = names[0], next = names.slice(1).join(".");
    if (names.length === 1) {
      if (isObject(obj) || (isArray(obj) && /^\d+$/.test(key))) fn(obj, key);
    } else {
      if (options?.buildGraph && isNil(obj[key])) obj[key] = \x7b\x7d;
      const item = obj[key];
      if (!item) return;
      const isNextArrayIndex = !!(names.length > 1 && /^\d+$/.test(names[1]));
      if (isArray(item) && options?.descendArray && !isNextArrayIndex) {
        item.forEach(e => walk(e, next, fn, options));
        return;
      }
      walk(item, next, fn, options);
    }
-/
def walkCalls (o : JSVal) : List String → Bool → Bool → List (JSVal × String)
  | [], _, _ => []
  | [k], _, _ =>
    if isObjV o || (isArrV o && isDigitsStr k) then [(o, k)] else []
  | k :: rest, descendArray, buildGraph =>
    match (if buildGraph && isNilOpt (getValue o k) then some (.obj .nil)
           else getValue o k) with
    | none => []
    | some it =>
      if !(isTruthy it) then []
      else
        match it with
        | .arr xs =>
          if descendArray &&
              !(match rest with | r :: _ => isDigitsStr r | [] => false) then
            jlFoldCalls (fun e => walkCalls e rest descendArray buildGraph) xs
          else walkCalls (.arr xs) rest descendArray buildGraph
        | w => walkCalls w rest descendArray buildGraph

def jlFoldIdx (g : JSVal → Nat → List (JSVal × String)) :
    JSList → Nat → List (JSVal × String)
  | .nil, _ => []
  | .cons v rest, i => g v i ++ jlFoldIdx g rest (i + 1)

/--
Fuelled translation of `applyUpdate` (`src/_internal/util.ts`); the fuel is
the placeholder-chain depth, consumed once per node, so `nodeDepth` is always
sufficient (see `applyUpdate` below):

    const \x7b parent, child: c, next \x7d = n;
    if (!c) \x7b walk(o, parent, f, opts); return; \x7d
    const t = resolve(o, parent);
    if (!isArray(t)) return;
    t.forEach((e, i) => \x7b
      const b = !q[c] || q[c].test(\x7b [c]: e \x7d);
      if (!b) return;
      if (next) applyUpdate(e, next, q, f);
      else f(t, i);
    \x7d);

The engine's only effects flow through the callback `f` (and `walk`), so the
returned list of `(container, key/index)` invocation sites captures the
mutation behaviour; an empty list means no mutation was performed.  The
per-identifier filter predicates `q` are reusable test functions built by the
external evaluator (spec section 6), modelled as boolean predicates.
-/
def applyUpdateF : Nat → JSVal → PathNode →
    (String → Option (JSVal → Bool)) → Bool → Bool → List (JSVal × String)
  | 0, _, _, _, _, _ => []
  | fuel + 1, o, .mk parent child next, q, descendArray, buildGraph =>
    match child with
    | none => walkCalls o (splitDot parent) descendArray buildGraph
    | some c =>
      match resolveFn o parent with
      | some (.arr ts) =>
        jlFoldIdx (fun e i =>
          if !(match q c with
               | none => true
               | some test => test (.obj (.cons c e .nil))) then []
          else
            match next with
            | some nx => applyUpdateF fuel e nx q false false
            | none => [(.arr ts, toString i)]) ts 0
      | _ => []

/-- `applyUpdate(o, n, q, f, opts)` with the options split into the
`descendArray` / `buildGraph` flags. -/
def applyUpdate (o : JSVal) (n : PathNode)
    (q : String → Option (JSVal → Bool)) (descendArray buildGraph : Bool) :
    List (JSVal × String) :=
  applyUpdateF (nodeDepth n) o n q descendArray buildGraph

def isArrOpt : Option JSVal → Bool
  | some (.arr _) => true
  | _ => false

theorem applyUpdateF_non_array (fuel : Nat) (o : JSVal) (parent c : String)
    (next : Option PathNode) (q : String → Option (JSVal → Bool))
    (descendArray buildGraph : Bool)
    (h : isArrOpt (resolveFn o parent) = false) :
    applyUpdateF (fuel + 1) o (.mk parent (some c) next) q
      descendArray buildGraph = [] := by
  unfold applyUpdateF
  cases hr : resolveFn o parent with
  | none => rfl
  | some v =>
    cases v with
    | arr xs =>
      rw [hr] at h
      simp [isArrOpt] at h
    | str s => rfl
    | num n => rfl
    | bool b => rfl
    | null => rfl
    | obj kvs => rfl

/-- C10: `applyUpdate` on a path node that carries an array-filter
placeholder (`child` present) whose `parent` segment does not resolve to an
array performs no mutation and invokes the callback zero times — the
invocation-site list is empty — and returns normally (the function is total;
the non-array guard simply returns). -/
theorem claim_C10_applyUpdate_non_array (o : JSVal) (parent c : String)
    (next : Option PathNode) (q : String → Option (JSVal → Bool))
    (descendArray buildGraph : Bool)
    (h : isArrOpt (resolveFn o parent) = false) :
    applyUpdate o (.mk parent (some c) next) q descendArray buildGraph = [] := by
  unfold applyUpdate
  cases hd : nodeDepth (PathNode.mk parent (some c) next) with
  | zero =>
    have := nodeDepth_pos (PathNode.mk parent (some c) next)
    omega
  | succ fuel =>
    exact applyUpdateF_non_array fuel o parent c next q descendArray buildGraph h

/-- Witness for C10: the document `\x7b a: 1 \x7d` with the selector chain
`a.$[x]`; `a` resolves to the number `1`, not an array. -/
theorem claim_C10_witness :
    applyUpdate (.obj (.cons "a" (.num 1) .nil))
      (.mk "a" (some "x") none) (fun _ => none) false false = [] :=
  claim_C10_applyUpdate_non_array (.obj (.cons "a" (.num 1) .nil)) "a" "x"
    none (fun _ => none) false false (by decide)

/-! ### Size bounds for `resolve` (termination backbone of the analyzer) -/

theorem joFind_size : ∀ (kvs : JSObj) (key : String) (v : JSVal),
    joFind kvs key = some v → jsize v < jsize (.obj kvs)
  | .nil, _, _, h => by cases h
  | .cons k w rest, key, v, h => by
    unfold joFind at h
    by_cases hk : k == key
    · rw [if_pos hk] at h
      injection h with h2
      subst h2
      simp [jsize, jsizeO]
      omega
    · rw [if_neg hk] at h
      have := joFind_size rest key v h
      simp [jsize, jsizeO] at this ⊢
      omega

theorem jlGet_size : ∀ (xs : JSList) (i : Nat) (v : JSVal),
    jlGet xs i = some v → jsize v < jsize (.arr xs)
  | .nil, _, _, h => by cases h
  | .cons w rest, 0, v, h => by
    injection h with h2
    subst h2
    simp [jsize, jsizeL]
    omega
  | .cons w rest, i + 1, v, h => by
    have := jlGet_size rest i v h
    simp [jsize, jsizeL] at this ⊢
    omega

theorem getValue_size (o : JSVal) (f : String) (v : JSVal)
    (h : getValue o f = some v) : jsize v < jsize o := by
  cases o with
  | obj kvs => exact joFind_size kvs f v h
  | arr xs =>
    simp only [getValue] at h
    by_cases hd : isDigitsStr f
    · rw [if_pos hd] at h
      exact jlGet_size xs (natOfDigits f) v h
    · rw [if_neg hd] at h
      cases h
  | str s => simp [getValue] at h
  | num n => simp [getValue] at h
  | bool b => simp [getValue] at h
  | null => simp [getValue] at h

theorem jsizeL_jlFilterMap_le (g : JSVal → Option JSVal)
    (hg : ∀ it r, g it = some r → jsize r ≤ jsize it) :
    ∀ xs : JSList, jsizeL (jlFilterMap g xs) ≤ jsizeL xs
  | .nil => le_refl 0
  | .cons v rest => by
    unfold jlFilterMap
    cases hv : g v with
    | none =>
      have := jsizeL_jlFilterMap_le g hg rest
      simp [jsizeL]
      omega
    | some w =>
      have h1 := hg v w hv
      have h2 := jsizeL_jlFilterMap_le g hg rest
      simp [jsizeL]
      omega

theorem resolveStep_size_gv (n : Nat) (V : JSVal) (f : String)
    (rest : List String) (depth : Nat) (w : JSVal)
    (ih : ∀ (u : JSVal) (path : List String) (first : Bool) (d : Nat) (r : JSVal),
        resolveStep n u path first d = some r → jsize r ≤ jsize u)
    (h : (match getValue V f with
          | none => none
          | some u => resolveStep n u rest false depth) = some w) :
    jsize w ≤ jsize V := by
  cases hg : getValue V f with
  | none => rw [hg] at h; simp at h
  | some u =>
    rw [hg] at h
    have h1 := getValue_size V f u hg
    have h2 := ih u rest false depth w h
    omega

theorem resolveStep_size : ∀ (n : Nat) (v : JSVal) (path : List String)
    (first : Bool) (depth : Nat) (w : JSVal),
    resolveStep n v path first depth = some w → jsize w ≤ jsize v
  | 0, _, _, _, _, _, h => by cases h
  | n + 1, v, [], _, _, w, h => by
    injection h with h2
    subst h2
    exact le_refl _
  | n + 1, v, f :: rest, first, depth, w, h => by
    cases v with
    | arr xs =>
      simp only [resolveStep] at h
      by_cases hd : isDigitsStr f
      · rw [if_pos hd] at h
        cases hg : jlGet xs (natOfDigits f) with
        | none => rw [hg] at h; simp at h
        | some u =>
          rw [hg] at h
          have h1 := jlGet_size xs (natOfDigits f) u hg
          have h2 := resolveStep_size n u rest false depth w h
          omega
      · rw [if_neg hd] at h
        by_cases hb : (first && !(depth == 0)) = true
        · rw [if_pos hb] at h
          injection h with h2
          subst h2
          exact le_refl _
        · rw [if_neg hb] at h
          injection h with h2
          subst h2
          have := jsizeL_jlFilterMap_le
            (fun it => resolveStep n it (f :: rest) true (depth + 1))
            (fun it r hr => resolveStep_size n it (f :: rest) true (depth + 1) r hr)
            xs
          simp [jsize]
          omega
    | str s =>
      simp only [resolveStep] at h
      exact resolveStep_size_gv n (.str s) f rest depth w
        (fun u path first d r hr => resolveStep_size n u path first d r hr) h
    | num m =>
      simp only [resolveStep] at h
      exact resolveStep_size_gv n (.num m) f rest depth w
        (fun u path first d r hr => resolveStep_size n u path first d r hr) h
    | bool b =>
      simp only [resolveStep] at h
      exact resolveStep_size_gv n (.bool b) f rest depth w
        (fun u path first d r hr => resolveStep_size n u path first d r hr) h
    | null =>
      simp only [resolveStep] at h
      exact resolveStep_size_gv n JSVal.null f rest depth w
        (fun u path first d r hr => resolveStep_size n u path first d r hr) h
    | obj kvs =>
      simp only [resolveStep] at h
      exact resolveStep_size_gv n (.obj kvs) f rest depth w
        (fun u path first d r hr => resolveStep_size n u path first d r hr) h

theorem resolveFn_size (o : JSVal) (sel : String) (w : JSVal)
    (h : resolveFn o sel = some w) : jsize w ≤ jsize o := by
  unfold resolveFn at h
  by_cases hs : isSimpleType o
  · rw [if_pos hs] at h
    injection h with h2
    subst h2
    exact le_refl _
  · rw [if_neg hs] at h
    exact resolveStep_size (jsize o) o (splitDot sel) true 0 w h

theorem keyedPieces_size (val : JSVal) (nodes : List String) (p : JSVal)
    (h : p ∈ keyedPieces val nodes) : jsize p ≤ jsize val := by
  unfold keyedPieces at h
  rcases List.mem_filterMap.mp h with ⟨s, _, hs⟩
  cases hr : resolveFn val s with
  | none => rw [hr] at hs; cases hs
  | some v =>
    rw [hr] at hs
    simp only at hs
    by_cases ht : isTruthy v
    · rw [if_pos ht] at hs
      injection hs with h2
      subst h2
      exact resolveFn_size val s v hr
    · rw [if_neg ht] at hs
      cases hs

/-! ### Fuel irrelevance of `resolveStep` -/

theorem jlFilterMap_congr_size (g1 g2 : JSVal → Option JSVal) (B : Nat)
    (hg : ∀ it, jsize it ≤ B → g1 it = g2 it) :
    ∀ xs : JSList, jsizeL xs ≤ B → jlFilterMap g1 xs = jlFilterMap g2 xs
  | .nil, _ => rfl
  | .cons v rest, h => by
    have hb : jsize v ≤ B := by
      unfold jsizeL at h
      omega
    have hrest : jsizeL rest ≤ B := by
      unfold jsizeL at h
      have := jsize_pos v
      omega
    unfold jlFilterMap
    rw [hg v hb, jlFilterMap_congr_size g1 g2 B hg rest hrest]

theorem resolveStep_cons_arr (n : Nat) (xs : JSList) (f : String)
    (rest : List String) (first : Bool) (depth : Nat) :
    resolveStep (n + 1) (.arr xs) (f :: rest) first depth =
      (if isDigitsStr f then
        match jlGet xs (natOfDigits f) with
        | none => none
        | some w => resolveStep n w rest false depth
      else if first && !(depth == 0) then some (.arr xs)
      else some (.arr (jlFilterMap
        (fun it => resolveStep n it (f :: rest) true (depth + 1)) xs))) := rfl

theorem resolveStep_cons_other (n : Nat) (v : JSVal) (f : String)
    (rest : List String) (first : Bool) (depth : Nat) (hv : isArrV v = false) :
    resolveStep (n + 1) v (f :: rest) first depth =
      (match getValue v f with
       | none => none
       | some w => resolveStep n w rest false depth) := by
  cases v with
  | arr xs => simp [isArrV] at hv
  | str s => rfl
  | num m => rfl
  | bool b => rfl
  | null => rfl
  | obj kvs => rfl

theorem resolveStep_stable : ∀ (n : Nat) (v : JSVal) (path : List String)
    (first : Bool) (depth : Nat), jsize v ≤ n →
    resolveStep (n + 1) v path first depth = resolveStep n v path first depth
  | 0, v, _, _, _, h => by
    have := jsize_pos v
    omega
  | n + 1, v, [], first, depth, _ => rfl
  | n + 1, v, f :: rest, first, depth, h => by
    cases hv : isArrV v with
    | false =>
      rw [resolveStep_cons_other (n + 1) v f rest first depth hv,
          resolveStep_cons_other n v f rest first depth hv]
      cases hg : getValue v f with
      | none => rfl
      | some u =>
        have h1 := getValue_size v f u hg
        have hu : jsize u ≤ n := by omega
        exact resolveStep_stable n u rest false depth hu
    | true =>
      cases v with
      | arr xs =>
        have hxs : jsizeL xs ≤ n := by
          simp only [jsize] at h
          omega
        rw [resolveStep_cons_arr (n + 1) xs f rest first depth,
            resolveStep_cons_arr n xs f rest first depth]
        by_cases hd : isDigitsStr f
        · rw [if_pos hd, if_pos hd]
          cases hg : jlGet xs (natOfDigits f) with
          | none => rfl
          | some u =>
            have h1 := jlGet_size xs (natOfDigits f) u hg
            have hu : jsize u ≤ n := by omega
            exact resolveStep_stable n u rest false depth hu
        · rw [if_neg hd, if_neg hd]
          by_cases hb : (first && !(depth == 0)) = true
          · rw [if_pos hb, if_pos hb]
          · rw [if_neg hb, if_neg hb]
            rw [jlFilterMap_congr_size
              (fun it => resolveStep (n + 1) it (f :: rest) true (depth + 1))
              (fun it => resolveStep n it (f :: rest) true (depth + 1)) n
              (fun it hit => resolveStep_stable n it (f :: rest) true (depth + 1) hit)
              xs hxs]
      | str s => simp [isArrV] at hv
      | num m => simp [isArrV] at hv
      | bool b => simp [isArrV] at hv
      | null => simp [isArrV] at hv
      | obj kvs => simp [isArrV] at hv

theorem resolveStep_ge (v : JSVal) (path : List String) (first : Bool)
    (depth : Nat) : ∀ n, jsize v ≤ n →
    resolveStep n v path first depth = resolveStep (jsize v) v path first depth := by
  intro n
  induction n with
  | zero =>
    intro h
    have := jsize_pos v
    omega
  | succ m ih =>
    intro h
    by_cases hm : jsize v ≤ m
    · rw [resolveStep_stable m v path first depth hm, ih hm]
    · have : jsize v = m + 1 := by omega
      rw [this]

/-! ### Provenance scrubbing

`scrub` replaces every loop-variable reference (a `"$$..."` string) by the
bare marker `"$$"` and every value sitting under a `$literal` key by `null`.
`getDependentPaths` cannot distinguish a scrubbed expression from the
original (`getDependentPaths_scrub` below), which formalizes that neither
loop-variable references nor literal-escaped sub-trees contribute anything
to the Dependency Set. -/
mutual
def scrub : JSVal → JSVal
  | .str s => if startsW s "$$" then .str "$$" else .str s
  | .num n => .num n
  | .bool b => .bool b
  | .null => .null
  | .arr xs => .arr (scrubL xs)
  | .obj kvs => .obj (scrubO kvs)

def scrubL : JSList → JSList
  | .nil => .nil
  | .cons v rest => .cons (scrub v) (scrubL rest)

def scrubO : JSObj → JSObj
  | .nil => .nil
  | .cons k v rest =>
    .cons k (if k == "$literal" then .null else scrub v) (scrubO rest)
end

theorem startsW_dd_d (s : String) (h : startsW s "$$" = true) :
    startsW s "$" = true := by
  unfold startsW at h ⊢
  rcases (lpre_iff _ _).mp h with ⟨t, ht⟩
  apply (lpre_iff _ _).mpr
  exact ⟨'$' :: t, by simpa using ht⟩

theorem string_ne_empty_of_dd {s : String} (h : startsW s "$$" = true) :
    (s == "") = false := by
  rcases (lpre_iff _ _).mp h with ⟨t, ht⟩
  cases hb : s == ""
  · rfl
  · have : s = "" := by simpa using hb
    subst this
    simp at ht

theorem isTruthy_scrub (v : JSVal) : isTruthy (scrub v) = isTruthy v := by
  cases v with
  | str s =>
    unfold scrub
    by_cases hdd : startsW s "$$"
    · rw [if_pos hdd]
      show (!("$$" == "")) = (!(s == ""))
      rw [string_ne_empty_of_dd hdd]
      decide
    · rw [if_neg hdd]
  | num n => rfl
  | bool b => rfl
  | null => rfl
  | arr xs => rfl
  | obj kvs => rfl

theorem isArrV_scrub (v : JSVal) : isArrV (scrub v) = isArrV v := by
  cases v with
  | str s =>
    unfold scrub
    by_cases hdd : startsW s "$$"
    · rw [if_pos hdd]
      rfl
    · rw [if_neg hdd]
  | num n => rfl
  | bool b => rfl
  | null => rfl
  | arr xs => rfl
  | obj kvs => rfl

theorem isNumV_scrub (v : JSVal) : isNumV (scrub v) = isNumV v := by
  cases v with
  | str s =>
    unfold scrub
    by_cases hdd : startsW s "$$"
    · rw [if_pos hdd]
      rfl
    · rw [if_neg hdd]
  | num n => rfl
  | bool b => rfl
  | null => rfl
  | arr xs => rfl
  | obj kvs => rfl

theorem isSimpleType_scrub (v : JSVal) : isSimpleType (scrub v) = isSimpleType v := by
  cases v with
  | str s =>
    unfold scrub
    by_cases hdd : startsW s "$$"
    · rw [if_pos hdd]
      rfl
    · rw [if_neg hdd]
  | num n => rfl
  | bool b => rfl
  | null => rfl
  | arr xs => rfl
  | obj kvs => rfl

theorem typeofObject_scrub (v : JSVal) : typeofObject (scrub v) = typeofObject v := by
  cases v with
  | str s =>
    unfold scrub
    by_cases hdd : startsW s "$$"
    · rw [if_pos hdd]
      rfl
    · rw [if_neg hdd]
  | num n => rfl
  | bool b => rfl
  | null => rfl
  | arr xs => rfl
  | obj kvs => rfl

theorem notProjectExpression_scrub (v : JSVal) :
    notProjectExpression (scrub v) = notProjectExpression v := by
  cases v with
  | str s =>
    unfold scrub
    by_cases hdd : startsW s "$$"
    · rw [if_pos hdd]
      show (!(startsW "$$" "$")) = (!(startsW s "$"))
      rw [startsW_dd_d s hdd]
      decide
    · rw [if_neg hdd]
  | num n => rfl
  | bool b => rfl
  | null => rfl
  | arr xs => rfl
  | obj kvs => rfl

theorem peekOperator_scrub (v : JSVal) : peekOperator (scrub v) = peekOperator v := by
  cases v with
  | str s =>
    unfold scrub
    by_cases hdd : startsW s "$$"
    · rw [if_pos hdd]
      rfl
    · rw [if_neg hdd]
  | num n => rfl
  | bool b => rfl
  | null => rfl
  | arr xs => rfl
  | obj kvs =>
    cases kvs with
    | nil => rfl
    | cons k w rest =>
      cases rest with
      | nil => rfl
      | cons k2 w2 rest2 => rfl

theorem joFind_scrubO : ∀ (kvs : JSObj) (key : String),
    (key == "$literal") = false →
    joFind (scrubO kvs) key = (joFind kvs key).map scrub
  | .nil, _, _ => rfl
  | .cons k v rest, key, h => by
    unfold scrubO joFind
    by_cases hk : k == key
    · rw [if_pos hk, if_pos hk]
      have hkl : (k == "$literal") = false := by
        have hkey : k = key := by simpa using hk
        subst hkey
        exact h
      rw [hkl]
      rfl
    · rw [if_neg hk, if_neg hk]
      exact joFind_scrubO rest key h

theorem jlGet_scrubL : ∀ (xs : JSList) (i : Nat),
    jlGet (scrubL xs) i = (jlGet xs i).map scrub
  | .nil, _ => rfl
  | .cons v rest, 0 => rfl
  | .cons v rest, i + 1 => jlGet_scrubL rest i

theorem getValue_scrub (v : JSVal) (f : String)
    (hf : (f == "$literal") = false) :
    getValue (scrub v) f = (getValue v f).map scrub := by
  cases v with
  | str s =>
    unfold scrub
    by_cases hdd : startsW s "$$"
    · rw [if_pos hdd]
      rfl
    · rw [if_neg hdd]
      rfl
  | num n => rfl
  | bool b => rfl
  | null => rfl
  | arr xs =>
    show getValue (.arr (scrubL xs)) f = Option.map scrub (getValue (.arr xs) f)
    simp only [getValue]
    by_cases hd : isDigitsStr f
    · rw [if_pos hd, if_pos hd]
      exact jlGet_scrubL xs (natOfDigits f)
    · rw [if_neg hd, if_neg hd]
      rfl
  | obj kvs =>
    exact joFind_scrubO kvs f hf

theorem sliceAux_scrub (o : Option JSVal) :
    sliceAux (o.map scrub) = sliceAux o := by
  cases o with
  | none => rfl
  | some w =>
    cases w with
    | arr ws =>
      cases ws with
      | nil => rfl
      | cons a rest =>
        show (!(isNumV (scrub a))) = (!(isNumV a))
        rw [isNumV_scrub a]
    | str s =>
      show sliceAux (some (scrub (.str s))) = false
      unfold scrub
      by_cases hdd : startsW s "$$"
      · rw [if_pos hdd]
        rfl
      · rw [if_neg hdd]
        rfl
    | num n => rfl
    | bool b => rfl
    | null => rfl
    | obj o => rfl

theorem sliceExprFlavor_scrub (v : JSVal) :
    sliceExprFlavor (scrub v) = sliceExprFlavor v := by
  cases v with
  | str s =>
    unfold scrub
    by_cases hdd : startsW s "$$"
    · rw [if_pos hdd]
      rfl
    · rw [if_neg hdd]
  | num n => rfl
  | bool b => rfl
  | null => rfl
  | arr xs => rfl
  | obj kvs =>
    show sliceAux (joFind (scrubO kvs) "$slice") = sliceAux (joFind kvs "$slice")
    rw [joFind_scrubO kvs "$slice" (by decide)]
    exact sliceAux_scrub (joFind kvs "$slice")

/-! Scrubbing never enlarges a value. -/

mutual
theorem jsize_scrub_le : ∀ v : JSVal, jsize (scrub v) ≤ jsize v
  | .str s => by
    unfold scrub
    by_cases hdd : startsW s "$$"
    · rw [if_pos hdd]
      exact Nat.le_refl 1
    · rw [if_neg hdd]
  | .num n => le_refl _
  | .bool b => le_refl _
  | .null => le_refl _
  | .arr xs => by
    show 1 + jsizeL (scrubL xs) ≤ 1 + jsizeL xs
    have h := jsizeL_scrubL_le xs
    omega
  | .obj kvs => by
    show 1 + jsizeO (scrubO kvs) ≤ 1 + jsizeO kvs
    have h := jsizeO_scrubO_le kvs
    omega

theorem jsizeL_scrubL_le : ∀ xs : JSList, jsizeL (scrubL xs) ≤ jsizeL xs
  | .nil => le_refl _
  | .cons v rest => by
    show 1 + jsize (scrub v) + jsizeL (scrubL rest) ≤ 1 + jsize v + jsizeL rest
    have h1 := jsize_scrub_le v
    have h2 := jsizeL_scrubL_le rest
    omega

theorem jsizeO_scrubO_le : ∀ kvs : JSObj, jsizeO (scrubO kvs) ≤ jsizeO kvs
  | .nil => le_refl _
  | .cons k v rest => by
    show 2 + jsize (if k == "$literal" then JSVal.null else scrub v) +
          jsizeO (scrubO rest) ≤ 2 + jsize v + jsizeO rest
    have h2 := jsizeO_scrubO_le rest
    by_cases hk : (k == "$literal") = true
    · rw [if_pos hk]
      have h0 : jsize JSVal.null = 1 := rfl
      have h1 := jsize_pos v
      omega
    · rw [if_neg hk]
      have h1 := jsize_scrub_le v
      omega
end

/-! `resolve` commutes with scrubbing as long as no path segment is the
string `$literal` (the keyed argument slots of `KEYED_OPERATORS_MAP` never
are). -/

theorem jlFilterMap_scrubL (g1 g2 : JSVal → Option JSVal)
    (hp : ∀ v, g1 (scrub v) = (g2 v).map scrub) :
    ∀ xs : JSList, jlFilterMap g1 (scrubL xs) = scrubL (jlFilterMap g2 xs)
  | .nil => rfl
  | .cons v rest => by
    show jlFilterMap g1 (.cons (scrub v) (scrubL rest)) =
         scrubL (jlFilterMap g2 (.cons v rest))
    unfold jlFilterMap
    rw [hp v]
    cases g2 v with
    | none =>
      show jlFilterMap g1 (scrubL rest) = scrubL (jlFilterMap g2 rest)
      exact jlFilterMap_scrubL g1 g2 hp rest
    | some w =>
      show JSList.cons (scrub w) (jlFilterMap g1 (scrubL rest)) =
           scrubL (.cons w (jlFilterMap g2 rest))
      rw [jlFilterMap_scrubL g1 g2 hp rest]
      rfl

theorem resolveStep_scrub : ∀ (n : Nat) (v : JSVal) (path : List String)
    (first : Bool) (depth : Nat),
    (∀ f ∈ path, (f == "$literal") = false) →
    resolveStep n (scrub v) path first depth =
      (resolveStep n v path first depth).map scrub
  | 0, _, _, _, _, _ => rfl
  | _ + 1, _, [], _, _, _ => rfl
  | n + 1, v, f :: rest, first, depth, hp => by
    have hf : (f == "$literal") = false := hp f (List.mem_cons_self f rest)
    have hrest : ∀ g ∈ rest, (g == "$literal") = false :=
      fun g hg => hp g (List.mem_cons_of_mem f hg)
    cases hv : isArrV v with
    | false =>
      have hv2 : isArrV (scrub v) = false := by rw [isArrV_scrub]; exact hv
      rw [resolveStep_cons_other n (scrub v) f rest first depth hv2,
          resolveStep_cons_other n v f rest first depth hv,
          getValue_scrub v f hf]
      cases getValue v f with
      | none => rfl
      | some w =>
        show resolveStep n (scrub w) rest false depth =
             Option.map scrub (resolveStep n w rest false depth)
        exact resolveStep_scrub n w rest false depth hrest
    | true =>
      cases v with
      | arr xs =>
        show resolveStep (n + 1) (.arr (scrubL xs)) (f :: rest) first depth =
             Option.map scrub (resolveStep (n + 1) (.arr xs) (f :: rest) first depth)
        rw [resolveStep_cons_arr n (scrubL xs) f rest first depth,
            resolveStep_cons_arr n xs f rest first depth]
        by_cases hd : isDigitsStr f
        · rw [if_pos hd, if_pos hd, jlGet_scrubL xs (natOfDigits f)]
          cases jlGet xs (natOfDigits f) with
          | none => rfl
          | some w =>
            show resolveStep n (scrub w) rest false depth =
                 Option.map scrub (resolveStep n w rest false depth)
            exact resolveStep_scrub n w rest false depth hrest
        · rw [if_neg hd, if_neg hd]
          by_cases hb : (first && !(depth == 0)) = true
          · rw [if_pos hb, if_pos hb]
            rfl
          · rw [if_neg hb, if_neg hb,
              jlFilterMap_scrubL
                (fun it => resolveStep n it (f :: rest) true (depth + 1))
                (fun it => resolveStep n it (f :: rest) true (depth + 1))
                (fun w => resolveStep_scrub n w (f :: rest) true (depth + 1) hp)
                xs]
            rfl
      | str s => simp [isArrV] at hv
      | num m => simp [isArrV] at hv
      | bool b => simp [isArrV] at hv
      | null => simp [isArrV] at hv
      | obj kvs => simp [isArrV] at hv

theorem resolveFn_scrub (o : JSVal) (sel : String)
    (hp : ∀ f ∈ splitDot sel, (f == "$literal") = false) :
    resolveFn (scrub o) sel = (resolveFn o sel).map scrub := by
  unfold resolveFn
  rw [isSimpleType_scrub]
  by_cases hs : isSimpleType o
  · rw [if_pos hs, if_pos hs]
    rfl
  · rw [if_neg hs, if_neg hs,
      ← resolveStep_ge (scrub o) (splitDot sel) true 0 (jsize o) (jsize_scrub_le o)]
    exact resolveStep_scrub (jsize o) o (splitDot sel) true 0 hp

/-! ### The dependency analyzer ignores scrubbed provenance -/

theorem keyedNodes_literal_free (k : String) (nodes : List String)
    (h : keyedNodes k = some nodes) :
    ∀ s ∈ nodes, ∀ f ∈ splitDot s, (f == "$literal") = false := by
  unfold keyedNodes at h
  split at h
  · injection h with h2
    subst h2
    decide
  · injection h with h2
    subst h2
    decide
  · injection h with h2
    subst h2
    decide
  · injection h with h2
    subst h2
    decide
  · cases h

theorem keyedPieces_scrub (val : JSVal) (nodes : List String)
    (hn : ∀ s ∈ nodes, ∀ f ∈ splitDot s, (f == "$literal") = false) :
    keyedPieces (scrub val) nodes = (keyedPieces val nodes).map scrub := by
  unfold keyedPieces
  rw [List.map_filterMap]
  apply List.filterMap_congr
  intro s hs
  rw [resolveFn_scrub val s (hn s hs)]
  cases resolveFn val s with
  | none => rfl
  | some v =>
    show (if isTruthy (scrub v) then some (scrub v) else none) =
         Option.map scrub (if isTruthy v then some v else none)
    rw [isTruthy_scrub]
    by_cases ht : isTruthy v
    · rw [if_pos ht, if_pos ht]
      rfl
    · rw [if_neg ht, if_neg ht]
      rfl

theorem foldl_sunion_congr (g1 g2 : JSVal → List String) :
    ∀ (l : List JSVal), (∀ p ∈ l, g1 p = g2 p) → ∀ acc,
    l.foldl (fun acc p => sunion acc (g1 p)) acc =
      l.foldl (fun acc p => sunion acc (g2 p)) acc := by
  intro l
  induction l with
  | nil =>
    intro _ acc
    rfl
  | cons p rest ih =>
    intro h acc
    show List.foldl (fun acc p => sunion acc (g1 p)) (sunion acc (g1 p)) rest =
         List.foldl (fun acc p => sunion acc (g2 p)) (sunion acc (g2 p)) rest
    rw [h p (List.mem_cons_self p rest)]
    exact ih (fun q hq => h q (List.mem_cons_of_mem p hq)) (sunion acc (g2 p))

theorem entryAncestor_scrub (incl : Bool) (parent : Option String)
    (k : String) (val : JSVal) :
    entryAncestor incl parent k (scrub val) = entryAncestor incl parent k val := by
  unfold entryAncestor
  rw [peekOperator_scrub, sliceExprFlavor_scrub]

theorem entryDeps_literal (rec : JSVal → Option String → List String)
    (incl : Bool) (parent : Option String) (k : String) (val : JSVal)
    (hk : (k == "$literal") = true) :
    entryDeps rec incl parent k val = [] := by
  unfold entryDeps
  rw [if_pos hk]

theorem entryDeps_scrub (rec : JSVal → Option String → List String)
    (incl : Bool) (parent : Option String) (k : String) (val : JSVal)
    (hk : (k == "$literal") = false)
    (hrec : ∀ w pr, rec (scrub w) pr = rec w pr) :
    entryDeps rec incl parent k (scrub val) = entryDeps rec incl parent k val := by
  have hl : ¬((k == "$literal") = true) := by simp [hk]
  unfold entryDeps
  rw [if_neg hl, if_neg hl]
  by_cases h2 : isOperatorStr k = true
  · rw [if_pos h2, if_pos h2]
    cases hkn : keyedNodes k with
    | none =>
      show rec (scrub val) (entryParent2 parent k) = rec val (entryParent2 parent k)
      exact hrec val _
    | some nodes =>
      show (if typeofObject (scrub val) then
              (keyedPieces (scrub val) nodes).foldl
                (fun acc p => sunion acc (rec p (entryParent2 parent k))) []
            else rec (scrub val) (entryParent2 parent k)) =
           (if typeofObject val then
              (keyedPieces val nodes).foldl
                (fun acc p => sunion acc (rec p (entryParent2 parent k))) []
            else rec val (entryParent2 parent k))
      rw [typeofObject_scrub]
      by_cases h3 : typeofObject val = true
      · rw [if_pos h3, if_pos h3,
          keyedPieces_scrub val nodes (keyedNodes_literal_free k nodes hkn),
          List.foldl_map]
        exact foldl_sunion_congr (fun p => rec (scrub p) (entryParent2 parent k))
          (fun p => rec p (entryParent2 parent k)) (keyedPieces val nodes)
          (fun p _ => hrec p _) []
      · rw [if_neg h3, if_neg h3]
        exact hrec val _
  · rw [if_neg h2, if_neg h2]
    by_cases h4 : underUpdateOp parent = true
    · rw [if_pos h4, if_pos h4]
      exact hrec val _
    · rw [if_neg h4, if_neg h4, notProjectExpression_scrub]
      by_cases h5 : (!incl && parent.isNone && notProjectExpression val) = true
      · rw [if_pos h5, if_pos h5]
      · rw [if_neg h5, if_neg h5, entryAncestor_scrub, hrec val]

theorem entryDeps_congr (rec1 rec2 : JSVal → Option String → List String)
    (incl : Bool) (parent : Option String) (k : String) (val : JSVal)
    (h : ∀ w pr, jsize w ≤ jsize val → rec1 w pr = rec2 w pr) :
    entryDeps rec1 incl parent k val = entryDeps rec2 incl parent k val := by
  unfold entryDeps
  by_cases h1 : (k == "$literal") = true
  · rw [if_pos h1, if_pos h1]
  · rw [if_neg h1, if_neg h1]
    by_cases h2 : isOperatorStr k = true
    · rw [if_pos h2, if_pos h2]
      cases hkn : keyedNodes k with
      | none =>
        show rec1 val (entryParent2 parent k) = rec2 val (entryParent2 parent k)
        exact h val _ (le_refl _)
      | some nodes =>
        show (if typeofObject val then
                (keyedPieces val nodes).foldl
                  (fun acc p => sunion acc (rec1 p (entryParent2 parent k))) []
              else rec1 val (entryParent2 parent k)) =
             (if typeofObject val then
                (keyedPieces val nodes).foldl
                  (fun acc p => sunion acc (rec2 p (entryParent2 parent k))) []
              else rec2 val (entryParent2 parent k))
        by_cases h3 : typeofObject val = true
        · rw [if_pos h3, if_pos h3]
          exact foldl_sunion_congr (fun p => rec1 p (entryParent2 parent k))
            (fun p => rec2 p (entryParent2 parent k)) (keyedPieces val nodes)
            (fun p hp => h p _ (keyedPieces_size val nodes p hp)) []
        · rw [if_neg h3, if_neg h3]
          exact h val _ (le_refl _)
    · rw [if_neg h2, if_neg h2]
      by_cases h4 : underUpdateOp parent = true
      · rw [if_pos h4, if_pos h4]
        exact h val _ (le_refl _)
      · rw [if_neg h4, if_neg h4]
        by_cases h5 : (!incl && parent.isNone && notProjectExpression val) = true
        · rw [if_pos h5, if_pos h5]
        · rw [if_neg h5, if_neg h5]
          exact h val _ (le_refl _)

theorem jlFoldDeps_congr (g1 g2 : JSVal → List String) (B : Nat)
    (hg : ∀ v, jsize v ≤ B → g1 v = g2 v) :
    ∀ xs : JSList, jsizeL xs ≤ B → ∀ acc,
    jlFoldDeps g1 xs acc = jlFoldDeps g2 xs acc
  | .nil, _, _ => rfl
  | .cons v rest, h, acc => by
    have hv : jsize v ≤ B := by
      unfold jsizeL at h
      omega
    have hrest : jsizeL rest ≤ B := by
      unfold jsizeL at h
      have := jsize_pos v
      omega
    show jlFoldDeps g1 rest (sunion acc (g1 v)) =
         jlFoldDeps g2 rest (sunion acc (g2 v))
    rw [hg v hv]
    exact jlFoldDeps_congr g1 g2 B hg rest hrest (sunion acc (g2 v))

theorem joFoldDeps_congr (g1 g2 : String → JSVal → List String) (B : Nat)
    (hg : ∀ k v, jsize v ≤ B → g1 k v = g2 k v) :
    ∀ kvs : JSObj, jsizeO kvs ≤ B → ∀ acc,
    joFoldDeps g1 kvs acc = joFoldDeps g2 kvs acc
  | .nil, _, _ => rfl
  | .cons k v rest, h, acc => by
    have hv : jsize v ≤ B := by
      unfold jsizeO at h
      omega
    have hrest : jsizeO rest ≤ B := by
      unfold jsizeO at h
      have := jsize_pos v
      omega
    show joFoldDeps g1 rest (sunion acc (g1 k v)) =
         joFoldDeps g2 rest (sunion acc (g2 k v))
    rw [hg k v hv]
    exact joFoldDeps_congr g1 g2 B hg rest hrest (sunion acc (g2 k v))

theorem jlFoldDeps_scrubL (g : JSVal → List String)
    (hg : ∀ v, g (scrub v) = g v) :
    ∀ (xs : JSList) (acc : List String),
    jlFoldDeps g (scrubL xs) acc = jlFoldDeps g xs acc
  | .nil, _ => rfl
  | .cons v rest, acc => by
    show jlFoldDeps g (scrubL rest) (sunion acc (g (scrub v))) =
         jlFoldDeps g rest (sunion acc (g v))
    rw [hg v]
    exact jlFoldDeps_scrubL g hg rest (sunion acc (g v))

theorem joFoldDeps_scrubO (g : String → JSVal → List String)
    (hg : ∀ k v, g k (if k == "$literal" then JSVal.null else scrub v) = g k v) :
    ∀ (kvs : JSObj) (acc : List String),
    joFoldDeps g (scrubO kvs) acc = joFoldDeps g kvs acc
  | .nil, _ => rfl
  | .cons k v rest, acc => by
    show joFoldDeps g (scrubO rest)
          (sunion acc (g k (if k == "$literal" then JSVal.null else scrub v))) =
         joFoldDeps g rest (sunion acc (g k v))
    rw [hg k v]
    exact joFoldDeps_scrubO g hg rest (sunion acc (g k v))

/-- Head equation of the analyzer on strings. -/
theorem getDepsFuel_str (n : Nat) (s : String) (incl : Bool)
    (parent : Option String) :
    getDepsFuel (n + 1) (.str s) incl parent =
      (if startsW s "$$" then []
       else if startsW s "$" then [String.mk (s.data.drop 1)]
       else match parent with
            | some p => if isOperatorStr p then [] else [p]
            | none => []) := rfl

theorem getDepsFuel_stable : ∀ (n : Nat) (e : JSVal) (incl : Bool)
    (parent : Option String), jsize e ≤ n →
    getDepsFuel (n + 1) e incl parent = getDepsFuel n e incl parent
  | 0, e, _, _, h => by
    have := jsize_pos e
    omega
  | n + 1, e, incl, parent, h => by
    cases e with
    | str s => rfl
    | num m => rfl
    | bool b => rfl
    | null => rfl
    | arr xs =>
      have hxs : jsizeL xs ≤ n := by
        simp only [jsize] at h
        omega
      show jlFoldDeps (fun v => getDepsFuel (n + 1) v incl parent) xs [] =
           jlFoldDeps (fun v => getDepsFuel n v incl parent) xs []
      exact jlFoldDeps_congr (fun v => getDepsFuel (n + 1) v incl parent)
        (fun v => getDepsFuel n v incl parent) n
        (fun v hv => getDepsFuel_stable n v incl parent hv) xs hxs []
    | obj kvs =>
      have hkvs : jsizeO kvs ≤ n := by
        simp only [jsize] at h
        omega
      show joFoldDeps (fun k v =>
              entryDeps (fun w pr => getDepsFuel (n + 1) w incl pr) incl parent k v)
            kvs [] =
           joFoldDeps (fun k v =>
              entryDeps (fun w pr => getDepsFuel n w incl pr) incl parent k v)
            kvs []
      exact joFoldDeps_congr
        (fun k v => entryDeps (fun w pr => getDepsFuel (n + 1) w incl pr) incl parent k v)
        (fun k v => entryDeps (fun w pr => getDepsFuel n w incl pr) incl parent k v) n
        (fun k v hv => entryDeps_congr
          (fun w pr => getDepsFuel (n + 1) w incl pr)
          (fun w pr => getDepsFuel n w incl pr) incl parent k v
          (fun w pr hw => getDepsFuel_stable n w incl pr (le_trans hw hv)))
        kvs hkvs []

theorem getDepsFuel_ge (e : JSVal) (incl : Bool) (parent : Option String) :
    ∀ n, jsize e ≤ n →
    getDepsFuel n e incl parent = getDepsFuel (jsize e) e incl parent := by
  intro n
  induction n with
  | zero =>
    intro h
    have := jsize_pos e
    omega
  | succ m ih =>
    intro h
    by_cases hm : jsize e ≤ m
    · rw [getDepsFuel_stable m e incl parent hm, ih hm]
    · have he : jsize e = m + 1 := by omega
      rw [he]

theorem getDepsFuel_scrub : ∀ (n : Nat) (e : JSVal) (incl : Bool)
    (parent : Option String),
    getDepsFuel n (scrub e) incl parent = getDepsFuel n e incl parent
  | 0, _, _, _ => rfl
  | n + 1, e, incl, parent => by
    cases e with
    | num m => rfl
    | bool b => rfl
    | null => rfl
    | str s =>
      show getDepsFuel (n + 1) (if startsW s "$$" then JSVal.str "$$" else .str s)
            incl parent =
           getDepsFuel (n + 1) (.str s) incl parent
      by_cases hdd : startsW s "$$" = true
      · rw [if_pos hdd, getDepsFuel_str n "$$" incl parent,
            getDepsFuel_str n s incl parent,
            if_pos (by decide : startsW "$$" "$$" = true), if_pos hdd]
      · rw [if_neg hdd]
    | arr xs =>
      show jlFoldDeps (fun v => getDepsFuel n v incl parent) (scrubL xs) [] =
           jlFoldDeps (fun v => getDepsFuel n v incl parent) xs []
      exact jlFoldDeps_scrubL (fun v => getDepsFuel n v incl parent)
        (fun v => getDepsFuel_scrub n v incl parent) xs []
    | obj kvs =>
      show joFoldDeps (fun k v =>
              entryDeps (fun w pr => getDepsFuel n w incl pr) incl parent k v)
            (scrubO kvs) [] =
           joFoldDeps (fun k v =>
              entryDeps (fun w pr => getDepsFuel n w incl pr) incl parent k v)
            kvs []
      apply joFoldDeps_scrubO
      intro k v
      show entryDeps (fun w pr => getDepsFuel n w incl pr) incl parent k
            (if k == "$literal" then JSVal.null else scrub v) =
           entryDeps (fun w pr => getDepsFuel n w incl pr) incl parent k v
      cases hk : (k == "$literal") with
      | true =>
        rw [entryDeps_literal (fun w pr => getDepsFuel n w incl pr) incl parent k
              _ hk,
            entryDeps_literal (fun w pr => getDepsFuel n w incl pr) incl parent k
              v hk]
      | false =>
        show entryDeps (fun w pr => getDepsFuel n w incl pr) incl parent k
              (scrub v) =
             entryDeps (fun w pr => getDepsFuel n w incl pr) incl parent k v
        exact entryDeps_scrub (fun w pr => getDepsFuel n w incl pr) incl parent k v hk
          (fun w pr => getDepsFuel_scrub n w incl pr)

theorem getDependentPaths_scrub (e : JSVal) (incl : Bool) :
    getDependentPaths (scrub e) incl = getDependentPaths e incl := by
  unfold getDependentPaths
  rw [← getDepsFuel_ge (scrub e) incl none (jsize e) (jsize_scrub_le e)]
  exact getDepsFuel_scrub (jsize e) e incl none

/-! ### The analyzer result is duplicate-free -/

theorem nodup_addU (acc : List String) (v : String) (h : acc.Nodup) :
    (addU acc v).Nodup := by
  unfold addU
  by_cases hv : v ∈ acc
  · rw [if_pos hv]
    exact h
  · rw [if_neg hv]
    simp [List.nodup_append, h, hv]

theorem nodup_sunion : ∀ (l : List String) (acc : List String),
    acc.Nodup → (sunion acc l).Nodup := by
  intro l
  induction l with
  | nil =>
    intro acc h
    exact h
  | cons x rest ih =>
    intro acc h
    show (List.foldl addU (addU acc x) rest).Nodup
    exact ih (addU acc x) (nodup_addU acc x h)

theorem nodup_jlFoldDeps (g : JSVal → List String) :
    ∀ (xs : JSList) (acc : List String), acc.Nodup → (jlFoldDeps g xs acc).Nodup
  | .nil, _, h => h
  | .cons v rest, acc, h =>
    nodup_jlFoldDeps g rest (sunion acc (g v)) (nodup_sunion (g v) acc h)

theorem nodup_joFoldDeps (g : String → JSVal → List String) :
    ∀ (kvs : JSObj) (acc : List String), acc.Nodup → (joFoldDeps g kvs acc).Nodup
  | .nil, _, h => h
  | .cons k v rest, acc, h =>
    nodup_joFoldDeps g rest (sunion acc (g k v)) (nodup_sunion (g k v) acc h)

theorem nodup_getDepsFuel (n : Nat) (e : JSVal) (incl : Bool)
    (parent : Option String) : (getDepsFuel n e incl parent).Nodup := by
  cases n with
  | zero => exact List.nodup_nil
  | succ m =>
    cases e with
    | str s =>
      rw [getDepsFuel_str]
      by_cases h1 : startsW s "$$" = true
      · rw [if_pos h1]
        exact List.nodup_nil
      · rw [if_neg h1]
        by_cases h2 : startsW s "$" = true
        · rw [if_pos h2]
          exact List.nodup_singleton _
        · rw [if_neg h2]
          cases parent with
          | none => exact List.nodup_nil
          | some p =>
            show (if isOperatorStr p then ([] : List String) else [p]).Nodup
            by_cases h3 : isOperatorStr p = true
            · rw [if_pos h3]
              exact List.nodup_nil
            · rw [if_neg h3]
              exact List.nodup_singleton _
    | num m2 =>
      cases parent with
      | none => exact List.nodup_nil
      | some p => exact List.nodup_singleton _
    | bool b =>
      cases parent with
      | none => exact List.nodup_nil
      | some p => exact List.nodup_singleton _
    | null =>
      cases parent with
      | none => exact List.nodup_nil
      | some p => exact List.nodup_singleton _
    | arr xs =>
      exact nodup_jlFoldDeps (fun v => getDepsFuel m v incl parent) xs []
        List.nodup_nil
    | obj kvs =>
      exact nodup_joFoldDeps
        (fun k v => entryDeps (fun w pr => getDepsFuel m w incl pr) incl parent k v)
        kvs [] List.nodup_nil

theorem nodup_getDependentPaths (e : JSVal) (incl : Bool) :
    (getDependentPaths e incl).Nodup := nodup_getDepsFuel (jsize e) e incl none

/-- **C2.** The Dependency Set computed by `getDependentPaths` is hygienic:
(1) a string beginning with the loop-variable marker `$$` contributes no path
at all (the `String` arm returns the empty set for it at any fuel);
(2) an entry whose key is the literal-escape operator `$literal` contributes
no path, whatever its value (`entryDeps` short-circuits to the empty set);
(3) the whole analysis is invariant under `scrub`, which erases the content
of every `$$`-string and replaces every value under a `$literal` key by
`null` — so no path of the result is derived from either kind of sub-tree;
and (4) the result is duplicate-free, as befits a JS `Set`. -/
theorem claim_C2_dependency_hygiene :
    (∀ (n : Nat) (s : String) (incl : Bool) (parent : Option String),
        startsW s "$$" = true →
        getDepsFuel (n + 1) (JSVal.str s) incl parent = []) ∧
    (∀ (rec : JSVal → Option String → List String) (incl : Bool)
        (parent : Option String) (val : JSVal),
        entryDeps rec incl parent "$literal" val = []) ∧
    (∀ (e : JSVal) (incl : Bool),
        getDependentPaths (scrub e) incl = getDependentPaths e incl) ∧
    (∀ (e : JSVal) (incl : Bool), (getDependentPaths e incl).Nodup) := by
  refine ⟨?_, ?_, ?_, ?_⟩
  · intro n s incl parent h
    rw [getDepsFuel_str, if_pos h]
  · intro rec incl parent val
    exact entryDeps_literal rec incl parent "$literal" val (by decide)
  · intro e incl
    exact getDependentPaths_scrub e incl
  · intro e incl
    exact nodup_getDependentPaths e incl

theorem claim_C2_witness :
    startsW "$$this.x" "$$" = true ∧
    getDepsFuel 3 (JSVal.str "$$this.x") true none = [] ∧
    entryDeps (fun _ _ => ["q"]) true none "$literal" (JSVal.str "$a") = [] ∧
    getDependentPaths
        (scrub (JSVal.obj (.cons "a" (JSVal.str "$$v")
          (.cons "$literal" (JSVal.str "$x") .nil)))) false =
      getDependentPaths
        (JSVal.obj (.cons "a" (JSVal.str "$$v")
          (.cons "$literal" (JSVal.str "$x") .nil))) false ∧
    (getDependentPaths (JSVal.obj (.cons "a" (JSVal.str "$b") .nil)) true).Nodup :=
  ⟨by decide,
   claim_C2_dependency_hygiene.1 2 "$$this.x" true none (by decide),
   claim_C2_dependency_hygiene.2.1 (fun _ _ => ["q"]) true none (JSVal.str "$a"),
   claim_C2_dependency_hygiene.2.2.1
     (JSVal.obj (.cons "a" (JSVal.str "$$v")
       (.cons "$literal" (JSVal.str "$x") .nil))) false,
   claim_C2_dependency_hygiene.2.2.2
     (JSVal.obj (.cons "a" (JSVal.str "$b") .nil)) true⟩

end Adaka
